import Mathlib

/-!
OutputParser.h (n2a C runtime): a shallow embedding

The header defines two classes, `Column` and `OutputParser`.  They are embedded
here as structures with explicit state passing.

Modelling conventions

* `std::string` contents are `List Char` (one `Char` per byte); a column header
  is kept as a `String` so that it can be compared with literals.
* `float` samples are elements of an arbitrary type `V`.  The parser only copies
  samples, produces them with `atof`, or uses the literal `0`, so `V` carries a
  `Zero` instance and `atof : List Char → V` is a parameter.
* `int` is `Int` where a value can be negative (`length`, `next`, `startRow`,
  `rows`, `textWidth`, row arguments) and `Nat` for the counters `c`, `start` and
  `count` that only count upwards from 0.
* An `std::ifstream` is the list of newline-terminated lines not yet read.
* A result `none` stands for "no defined result": an access outside a vector or
  string (undefined behaviour or an exception in C++), or a loop budget that ran
  out.  Totality theorems show that `none` does not occur.
* `Column *` values are allocation numbers: `nextRow` allocates the columns in
  the order in which it appends them, so until the end of `parse` the pointer
  `k` is the object at `columns[k]`.
-/

namespace N2A

/-! ## Column -/

/-- Class `Column`.  The members `minimum`, `maximum` and `range` are touched only
by the constructor and by `computeStats`; they are not part of this record and
are kept in `ColumnStats`. -/
structure Column (V : Type) where
  header : String
  index : Int
  values : List V
  value : V
  startRow : Int
  textWidth : Int
  deriving DecidableEq

/-- Constructor `Column (const std::string & header)`.  The member `value` is not
initialised by the constructor; `uninit` is whatever it happens to hold. -/
def Column.construct {V : Type} (header : String) (uninit : V) : Column V :=
  { header := header, index := 0, values := [], value := uninit, startRow := 0, textWidth := 0 }

/-- Method `Column::get (int row, float defaultValue)`. -/
def Column.get {V : Type} (column : Column V) (row : Int) (defaultValue : V) : Option V :=
  if row < 0 then some column.value
  else
    let row := row - column.startRow
    if row < 0 ∨ row ≥ (column.values.length : Int) then some defaultValue
    else column.values[row.toNat]?

/-! ## Strings and streams -/

/-- Offset of the first character of `line` that occurs in `chars`. -/
def firstOf (chars : List Char) : List Char → Option Nat
  | [] => none
  | ch :: rest => if ch ∈ chars then some 0 else (firstOf chars rest).map (· + 1)

/-- Member `std::string::find_first_of (chars, start)`; `none` is `npos`. -/
def find_first_of (line : List Char) (chars : List Char) (start : Nat) : Option Nat :=
  (firstOf chars (line.drop start)).map (· + start)

/-- Member `std::string::substr (pos, count)`; it throws when `pos > size ()`.
`count` is the `int` that the caller passes: converted to `size_t`, a negative
`int` (`npos` for -1) is larger than the size of any string, so that the
substring runs to the end of the line. -/
def substr (line : List Char) (pos : Nat) (count : Int) : Option (List Char) :=
  if pos > line.length then none
  else if count < 0 then some (line.drop pos)
  else some ((line.drop pos).take count.toNat)

/-- Lines of a file that end in a newline, in order.  A last fragment without a
newline is not listed: `getline` reads it but leaves the stream at end of file,
so that `good ()` is false. -/
def completeLines (acc : List Char) : List Char → List (List Char)
  | [] => []
  | ch :: rest =>
    if ch = Char.ofNat 10 then acc.reverse :: completeLines [] rest
    else completeLines (ch :: acc) rest

/-- An `std::ifstream` on a file: the lines that `getline` can still deliver with
`good ()` true.  A file that cannot be opened delivers none. -/
def ifstream (file : Option String) : List (List Char) :=
  match file with
  | none => []
  | some content => completeLines [] content.data

/-! ## OutputParser -/

/-- Class `OutputParser`. -/
structure OutputParser (V : Type) where
  columns : List (Column V)
  input : Option (List (List Char))
  raw : Bool
  isXycePRN : Bool
  time : Option Nat
  timeFound : Bool
  rows : Int
  defaultValue : V
  deriving DecidableEq

/-- Constructor `OutputParser ()`: it sets `in = 0` and `defaultValue = 0`.  The
other members are unset until `open`; they get placeholder values here. -/
def OutputParser.construct {V : Type} [Zero V] : OutputParser V :=
  { columns := [], input := none, raw := false, isXycePRN := false, time := none,
    timeFound := false, rows := 0, defaultValue := 0 }

/-- Method `OutputParser::close`. -/
def OutputParser.close {V : Type} (p : OutputParser V) : OutputParser V :=
  { p with input := none, columns := [] }

/-- Method `OutputParser::open`. -/
def OutputParser.open {V : Type} (p : OutputParser V) (file : Option String) : OutputParser V :=
  { p.close with
    input := some (ifstream file), raw := true, isXycePRN := false, time := none,
    timeFound := false, rows := 0 }

/-- The classification `isHeader` of a line by its first character `l`. -/
def isHeaderChar (l : Char) : Bool :=
  (decide (l < '0') || decide (l > '9')) && l != '+' && l != '-'

/-- Body of the inner `while (true)` of `nextRow` between the computation of
`length` and the test `if (next == npos) break`: the treatment of the field that
starts at `start` and has column index `c`. -/
def scanField {V : Type} (atof : List Char → V) (uninit defaultValue : V)
    (line : List Char) (isHeader : Bool) (c start : Nat) (length : Int)
    (columns : List (Column V)) : Option (List (Column V)) :=
  if isHeader then
    if c = columns.length then
      (substr line start length).map
        fun text => columns ++ [Column.construct (String.mk text) uninit]
    else some columns
  else
    let columns := if c = columns.length then columns ++ [Column.construct "" uninit] else columns
    match columns[c]? with
    | none => none
    | some column =>
      if length = 0 then some (columns.set c { column with value := defaultValue })
      else
        (substr line start length).map fun text =>
          columns.set c { column with textWidth := max column.textWidth length, value := atof text }

/-- The inner `while (true)` of `nextRow`, which scans the fields of `line`.
`c` is the column index and `start` the scan position; the result is the final
`c` with the updated columns.  `budget` bounds the number of iterations. -/
def scanFields {V : Type} (atof : List Char → V) (uninit defaultValue : V)
    (line : List Char) (isHeader : Bool) :
    Nat → Nat → Nat → List (Column V) → Option (Nat × List (Column V))
  | 0, _, _, _ => none
  | budget + 1, c, start, columns =>
    let pos := find_first_of line [' ', '\t'] start
    let length : Int := match pos with
      | none => -1
      | some pos => (pos : Int) - start
    let next : Int := match pos with
      | none => -1
      | some pos => (pos : Int) + 1
    match scanField atof uninit defaultValue line isHeader c start length columns with
    | none => none
    | some columns =>
      if next = -1 then some (c, columns)
      else scanFields atof uninit defaultValue line isHeader budget (c + 1) next.toNat columns

/-- The outer `while (true)` of `nextRow`.  `lines` are the lines still in the
stream; each `getline` takes the first of them, and `good ()` is false when there
is none left. -/
def nextRowLoop {V : Type} (atof : List Char → V) (uninit : V) :
    List (List Char) → OutputParser V → Option (Nat × OutputParser V)
  | [], p => some (0, { p with input := some [] })
  | line :: rest, p =>
    let p := { p with input := some rest }
    match line with
    | [] => nextRowLoop atof uninit rest p
    | l :: _ =>
      if substr line 0 6 = some "End of".data then some (0, p)
      else
        let isHeader := isHeaderChar l
        let p := if isHeader then { p with raw := false } else p
        match scanFields atof uninit p.defaultValue line isHeader (line.length + 1) 0 0 p.columns with
        | none => none
        | some (c, columns) =>
          let p := { p with columns := columns }
          if isHeader then
            match columns[0]? with
            | none => none
            | some first => nextRowLoop atof uninit rest { p with isXycePRN := first.header == "Index" }
          else some (c, { p with rows := p.rows + 1 })

/-- Method `OutputParser::nextRow`: the returned count and the new state. -/
def OutputParser.nextRow {V : Type} (atof : List Char → V) (uninit : V) (p : OutputParser V) :
    Option (Nat × OutputParser V) :=
  match p.input with
  | none => some (0, p)
  | some lines => nextRowLoop atof uninit lines p

/-- First `for` of the row loop in `parse`: for `c = 0 .. count - 1` the value of
the current row is appended to column `c`; `n` is the number of iterations left. -/
def storeValues {V : Type} (rows : Int) : Nat → Nat → List (Column V) → Option (List (Column V))
  | 0, _, columns => some columns
  | n + 1, c, columns =>
    match columns[c]? with
    | none => none
    | some column =>
      let column := if column.values.isEmpty then { column with startRow := rows - 1 } else column
      storeValues rows n (c + 1) (columns.set c { column with values := column.values ++ [column.value] })

/-- Second `for` of the row loop in `parse`: the columns from `c` on receive
`defaultValue`; `n` is the number of iterations left. -/
def fillValues {V : Type} (defaultValue : V) : Nat → Nat → List (Column V) → Option (List (Column V))
  | 0, _, columns => some columns
  | n + 1, c, columns =>
    match columns[c]? with
    | none => none
    | some column =>
      fillValues defaultValue n (c + 1) (columns.set c { column with values := column.values ++ [defaultValue] })

/-- Body of `while (int count = nextRow ())` in `parse`, for a nonzero `count`. -/
def storeRow {V : Type} (p : OutputParser V) (count : Nat) : Option (OutputParser V) :=
  match storeValues p.rows count 0 p.columns with
  | none => none
  | some columns =>
    (fillValues p.defaultValue (columns.length - count) count columns).map
      fun columns => { p with columns := columns }

/-- The loop `while (int count = nextRow ())` of `parse`. -/
def parseLoop {V : Type} (atof : List Char → V) (uninit : V) :
    Nat → OutputParser V → Option (OutputParser V)
  | 0, _ => none
  | budget + 1, p =>
    match p.nextRow atof uninit with
    | none => none
    | some (count, p) =>
      if count = 0 then some p
      else
        match storeRow p count with
        | none => none
        | some p => parseLoop atof uninit budget p

/-- First part of `parse`: `defaultValue` is stored, the file is opened and its
rows are read until `nextRow` returns 0. -/
def OutputParser.parseRows {V : Type} (atof : List Char → V) (uninit : V) (p : OutputParser V)
    (file : Option String) (defaultValue : V) : Option (OutputParser V) :=
  parseLoop atof uninit ((ifstream file).length + 1)
    (({ p with defaultValue := defaultValue }).open file)

/-- The loop of `parse` over the file `fileName + ".columns"`: one line per
column, stopping at the first `getline` that leaves the stream not good. -/
def parseColumnFile {V : Type} : List (List Char) → List (Column V) → List (Column V)
  | _, [] => []
  | [], columns => columns
  | line :: rest, c :: columns =>
    (if c.header.isEmpty then { c with header := String.mk line } else c) :: parseColumnFile rest columns

/-- The value `potentialMatch` that `parse` gives to a header. -/
def potentialMatch (header : String) : Nat :=
  if header = "t" then 1
  else if header = "TIME" then 2
  else if header = "$t" then 3
  else 0

/-- The loop "Determine time column" of `parse`.  `k` is the allocation number
of the first column of the list; the state is `(timeMatch, time, timeFound)`. -/
def determineTime {V : Type} : List (Column V) → Nat → Nat × Option Nat × Bool → Nat × Option Nat × Bool
  | [], _, state => state
  | c :: columns, k, (timeMatch, time, timeFound) =>
    if potentialMatch c.header > timeMatch then
      determineTime columns (k + 1) (potentialMatch c.header, some k, true)
    else determineTime columns (k + 1) (timeMatch, time, timeFound)

/-- Second part of `parse`, after the row loop: column file, time column, and
removal of the Xyce "Index" column.  `columns.erase (columns.begin ())` removes
the pointer from the vector; the column object itself is not deleted. -/
def OutputParser.parseFinish {V : Type} (p : OutputParser V) (columnFile : Option String) :
    OutputParser V :=
  if p.columns.isEmpty then p
  else
    let columns := parseColumnFile (ifstream columnFile) p.columns
    let state := determineTime columns 0 (0, some 0, p.timeFound)
    { p with
      columns := if p.isXycePRN then columns.tail else columns,
      time := state.2.1, timeFound := state.2.2 }

/-- Method `OutputParser::parse (fileName, defaultValue)`.  `file` is the content
of `fileName` and `columnFile` that of `fileName + ".columns"` (`none` when the
file cannot be opened). -/
def OutputParser.parse {V : Type} (atof : List Char → V) (uninit : V) (p : OutputParser V)
    (file columnFile : Option String) (defaultValue : V) : Option (OutputParser V) :=
  (p.parseRows atof uninit file defaultValue).map fun p => p.parseFinish columnFile

/-- Method `OutputParser::getColumn`. -/
def OutputParser.getColumn {V : Type} (p : OutputParser V) (columnName : String) : Option (Column V) :=
  p.columns.find? fun c => c.header == columnName

/-- Method `OutputParser::get (columnName, row)`.  The call `c->get (row)` leaves
the second argument of `Column::get` at its default, the literal 0. -/
def OutputParser.get {V : Type} [Zero V] (p : OutputParser V) (columnName : String) (row : Int) :
    Option V :=
  match p.getColumn columnName with
  | none => some p.defaultValue
  | some c => c.get row 0

/-! ## A model of `atof` for concrete inputs -/

/-- The C predicate `isspace` in the "C" locale. -/
def isspace (ch : Char) : Bool :=
  ch = ' ' || (9 ≤ ch.toNat && ch.toNat ≤ 13)

/-- Reads a run of decimal digits: the value read so far, the number of digits,
and the rest of the text. -/
def readDigits : List Char → Nat → Nat → Nat × Nat × List Char
  | [], acc, n => (acc, n, [])
  | ch :: rest, acc, n =>
    if ch.isDigit then readDigits rest (10 * acc + (ch.toNat - 48)) (n + 1)
    else (acc, n, ch :: rest)

/-- Reads an optional sign; the flag is true for a minus sign. -/
def readSign : List Char → Bool × List Char
  | [] => (false, [])
  | ch :: rest => if ch = '-' then (true, rest) else if ch = '+' then (false, rest) else (false, ch :: rest)

/-- Reads an optional exponent part `e[+-]digits` and returns the exponent. -/
def readExponent : List Char → Int
  | [] => 0
  | ch :: rest =>
    if ch = 'e' || ch = 'E' then
      let sign := readSign rest
      let digits := readDigits sign.2 0 0
      if digits.2.1 = 0 then 0 else if sign.1 then -(digits.1 : Int) else (digits.1 : Int)
    else 0

/-- Modelled from the spec: the C library function `atof`, which is not part of
the repository.  The spec has "parse the field as a floating-point value using
standard decimal syntax (sign, integer, fraction, exponent). Parse failure yields
0".  The value is the exact rational number denoted by the longest such prefix
after leading white space; rounding to `float`, hexadecimal notation and the
words `inf` and `nan` are left out. -/
def atof (text : List Char) : ℚ :=
  let sign := readSign (text.dropWhile isspace)
  let whole := readDigits sign.2 0 0
  let fraction := match whole.2.2 with
    | [] => (0, 0, [])
    | ch :: rest => if ch = '.' then readDigits rest 0 0 else (0, 0, ch :: rest)
  if whole.2.1 + fraction.2.1 = 0 then 0
  else
    let mantissa : Nat := whole.1 * 10 ^ fraction.2.1 + fraction.1
    let exponent : Int := readExponent fraction.2.2 - fraction.2.1
    let magnitude : ℚ :=
      if 0 ≤ exponent then mkRat (mantissa * 10 ^ exponent.toNat) 1
      else mkRat mantissa (10 ^ (-exponent).toNat)
    if sign.1 then -magnitude else magnitude

/-! ## Definitions used to state the properties -/

/-- The definition of `Column::get` in the words of the specification. -/
def Column.getReference {V : Type} (column : Column V) (row : Int) (dflt : V) : V :=
  if row < 0 then column.value
  else if h : 0 ≤ row - column.startRow ∧ row - column.startRow < column.values.length then
    column.values[(row - column.startRow).toNat]
  else dflt

/-- The first field of a line in the words of the specification: the characters
before the first space or tab. -/
def firstField (line : List Char) : List Char :=
  line.takeWhile fun ch => !(ch == ' ' || ch == '\t')

/-- What one call of `nextRow` guarantees about the state `q` it leaves, when it
starts in state `p` with the lines `lines` pending and returns `count`. -/
def RowStep {V : Type} (lines : List (List Char)) (p : OutputParser V) (count : Nat)
    (q : OutputParser V) : Prop :=
  (count = 0 ∨ count < q.columns.length) ∧
  (∃ pending, q.input = some pending ∧ pending.length ≤ lines.length ∧
    (count ≠ 0 → pending.length < lines.length)) ∧
  q.timeFound = p.timeFound ∧ q.time = p.time ∧ q.defaultValue = p.defaultValue ∧
  p.columns.map (fun c => c.header) <+: q.columns.map (fun c => c.header) ∧
  (q.isXycePRN = p.isXycePRN ∨
    ∃ first, q.columns.head? = some first ∧ q.isXycePRN = (first.header == "Index"))

/-- Relation between a parser state `p` and a later state `q` of the same parse:
what the row loop of `parse` never changes. -/
def Reach {V : Type} (p q : OutputParser V) : Prop :=
  q.timeFound = p.timeFound ∧ q.time = p.time ∧ q.defaultValue = p.defaultValue ∧
  p.columns.map (fun c => c.header) <+: q.columns.map (fun c => c.header) ∧
  (q.isXycePRN = p.isXycePRN ∨
    ∃ first, q.columns.head? = some first ∧ q.isXycePRN = (first.header == "Index"))

/-- Scenario S1 of the specification: a header row and three data rows. -/
def scenarioS1 : String := "t\tv\n0\t1.0\n1\t2.0\n2\t4.0\n"

/-- Scenario S3 of the specification: a Xyce PRN file. -/
def scenarioS3 : String := "Index\tTIME\tV(1)\n0\t0.0\t1.0\n1\t1e-3\t1.5\nEnd of Xyce\n"

/-- Scenario S4 of the specification: a second data row shorter than the first. -/
def scenarioS4 : String := "a\tb\tc\n1\t2\t3\n4\t5\n"

/-- A parser as the constructor leaves it, with samples in `ℚ`. -/
def fresh : OutputParser ℚ := OutputParser.construct

/-- State after the row loop of `parse` on the file "Index\tt\n". -/
def indexRows : OutputParser ℚ :=
  { columns := [Column.construct "Index" 0, Column.construct "t" 0], input := some [],
    raw := false, isXycePRN := true, time := none, timeFound := false, rows := 0,
    defaultValue := 0 }

/-- State at the end of `parse` on the file "Index\tt\n". -/
def indexFinal : OutputParser ℚ :=
  { indexRows with columns := [Column.construct "t" 0], time := some 1, timeFound := true }

/-- Number of delimiter characters (spaces and tabs) of a line. -/
def countDelims (line : List Char) : Nat :=
  line.countP fun ch => ch == ' ' || ch == '\t'

/-- Scenario S5 of the specification: a second data row longer than the first. -/
def scenarioS5 : String := "1\n2\t9\n"

/-- A header line in the words of the claims: a non-empty line that does not start
with "End of" and whose first character is not a digit, '+' or '-'. -/
def isHeaderLine (line : List Char) : Bool :=
  match line with
  | [] => false
  | l :: _ => isHeaderChar l && !(decide (substr line 0 6 = some "End of".data))

/-- The state after `n` successive calls of `nextRow`, whatever they return. -/
def nextRowCalls {V : Type} (atof : List Char → V) (uninit : V) :
    Nat → OutputParser V → Option (OutputParser V)
  | 0, p => some p
  | n + 1, p =>
    match p.nextRow atof uninit with
    | none => none
    | some (_, q) => nextRowCalls atof uninit n q

/-- What the first `for` of the row loop of `parse` does to one column. -/
def storeColumn {V : Type} (rows : Int) (column : Column V) : Column V :=
  let column := if column.values.isEmpty then { column with startRow := rows - 1 } else column
  { column with values := column.values ++ [column.value] }

/-- What the second `for` of the row loop of `parse` does to one column. -/
def fillColumn {V : Type} (defaultValue : V) (column : Column V) : Column V :=
  { column with values := column.values ++ [defaultValue] }

/-- The bound on one column that the row loop of `parse` maintains for the row
count `rows`. -/
def ColumnBound {V : Type} (rows : Int) (column : Column V) : Prop :=
  0 ≤ column.startRow ∧ column.startRow + column.values.length ≤ rows

/-- The invariant of the row loop of `parse`: `rows` is not negative and every
column, also one without values, satisfies `startRow >= 0` and
`startRow + len (values) <= rows`. -/
def ColumnInv {V : Type} (p : OutputParser V) : Prop :=
  0 ≤ p.rows ∧ ∀ c ∈ p.columns, ColumnBound p.rows c

/-! ## Column statistics -/

/-- A `float` or `double` value: a finite number of `F`, one of the two
infinities, or a NaN.  The conversion `(double) f` of a `float` is exact and is
the identity here. -/
inductive Sample (F : Type) where
  | finite (x : F)
  | posInf
  | negInf
  | nan
  deriving DecidableEq

/-- The function `std::isinf`. -/
def Sample.isinf {F : Type} : Sample F → Bool
  | .posInf => true
  | .negInf => true
  | _ => false

/-- The function `std::isnan`. -/
def Sample.isnan {F : Type} : Sample F → Bool
  | .nan => true
  | _ => false

/-- The comparison `a < b` of two `double`s; it is false when one of them is NaN. -/
def Sample.lt {F : Type} [LinearOrder F] : Sample F → Sample F → Bool
  | .nan, _ => false
  | _, .nan => false
  | .finite x, .finite y => decide (x < y)
  | .finite _, .posInf => true
  | .finite _, .negInf => false
  | .posInf, _ => false
  | .negInf, .negInf => false
  | .negInf, _ => true

/-- The function `std::min (a, b)`, which returns `b` when `b < a` and `a`
otherwise. -/
def stdMin {F : Type} [LinearOrder F] (a b : Sample F) : Sample F :=
  if Sample.lt b a then b else a

/-- The function `std::max (a, b)`, which returns `b` when `a < b` and `a`
otherwise. -/
def stdMax {F : Type} [LinearOrder F] (a b : Sample F) : Sample F :=
  if Sample.lt a b then b else a

/-- The difference `a - b` of two `double`s.  On finite numbers it is the
subtraction of `F`, which stands for the rounded difference. -/
def Sample.sub {F : Type} [Sub F] : Sample F → Sample F → Sample F
  | .nan, _ => .nan
  | _, .nan => .nan
  | .finite x, .finite y => .finite (x - y)
  | .finite _, .posInf => .negInf
  | .finite _, .negInf => .posInf
  | .posInf, .posInf => .nan
  | .posInf, _ => .posInf
  | .negInf, .negInf => .nan
  | .negInf, _ => .negInf

/-- The members `minimum`, `maximum` and `range` of class `Column`. -/
structure ColumnStats (F : Type) where
  minimum : Sample F
  maximum : Sample F
  range : Sample F
  deriving DecidableEq

/-- The values that the constructor of `Column` gives to the three members. -/
def ColumnStats.construct {F : Type} [Zero F] : ColumnStats F :=
  { minimum := .posInf, maximum := .negInf, range := .finite 0 }

/-- The loop `for (auto f : values)` of `computeStats`. -/
def computeStatsLoop {F : Type} [LinearOrder F] : List (Sample F) → ColumnStats F → ColumnStats F
  | [], s => s
  | f :: values, s =>
    if f.isinf || f.isnan then computeStatsLoop values s
    else
      computeStatsLoop values
        { s with minimum := stdMin s.minimum f, maximum := stdMax s.maximum f }

/-- The statements of the body of `Column::computeStats`, on the three members and
the `values` of the column: the members as they stand when control reaches the
closing brace of the method. -/
def ColumnStats.computeStatsBody {F : Type} [LinearOrder F] [Zero F] [Sub F] (s : ColumnStats F)
    (values : List (Sample F)) : ColumnStats F :=
  let s := computeStatsLoop values s
  if s.maximum.isinf then { range := .finite 0, minimum := .finite 0, maximum := .finite 0 }
  else { s with range := s.maximum.sub s.minimum }

theorem firstOf_lt (chars : List Char) : ∀ (l : List Char) (k : Nat), firstOf chars l = some k → k < l.length := by
  intro l
  induction l with
  | nil => intro k h; simp [firstOf] at h
  | cons ch rest ih =>
    intro k h
    simp only [firstOf] at h
    split at h
    · simp at h; subst h; simp
    · cases hr : firstOf chars rest with
      | none => simp [hr] at h
      | some j =>
        simp [hr] at h
        subst h
        have := ih j hr
        simp; omega

theorem find_first_of_bounds (line chars : List Char) (start pos : Nat)
    (h : find_first_of line chars start = some pos) : start ≤ pos ∧ pos < line.length := by
  unfold find_first_of at h
  cases hr : firstOf chars (line.drop start) with
  | none => simp [hr] at h
  | some j =>
    simp [hr] at h
    have := firstOf_lt chars _ j hr
    simp at this
    omega

theorem map_header_set {V : Type} (cols : List (Column V)) (c : Nat) (col' : Column V)
    (h : ∀ col, cols[c]? = some col → col'.header = col.header) :
    (cols.set c col').map (fun x => x.header) = cols.map (fun x => x.header) := by
  apply List.ext_getElem?
  intro i
  by_cases hi : c = i
  · subst hi
    by_cases hlt : c < cols.length
    · have := h cols[c] (List.getElem?_eq_getElem hlt)
      simp [List.getElem?_map, hlt, this]
    · have hge : cols.length ≤ c := by omega
      simp [List.getElem?_map, List.getElem?_eq_none hge, hge]
  · simp [List.getElem?_map, List.getElem?_set_ne hi]

theorem substr_some (line : List Char) (pos : Nat) (count : Int) (h : pos ≤ line.length) :
    ∃ text, substr line pos count = some text := by
  unfold substr
  have : ¬ pos > line.length := by omega
  simp only [this, if_false]
  split
  · exact ⟨_, rfl⟩
  · exact ⟨_, rfl⟩

theorem scanField_some {V : Type} (atof : List Char → V) (uninit d : V) (line : List Char)
    (isHeader : Bool) (c start : Nat) (length : Int) (columns : List (Column V))
    (hc : c ≤ columns.length) (hs : start ≤ line.length) :
    ∃ cols, scanField atof uninit d line isHeader c start length columns = some cols ∧
      c < cols.length ∧ columns.length ≤ cols.length ∧
      columns.map (fun x => x.header) <+: cols.map (fun x => x.header) := by
  obtain ⟨text, htext⟩ := substr_some line start length hs
  unfold scanField
  cases isHeader with
  | true =>
    simp only [if_true]
    by_cases hcl : c = columns.length
    · simp only [hcl, if_true, htext, Option.map_some']
      refine ⟨_, rfl, ?_, ?_, ?_⟩
      · simp
      · simp
      · simp
    · simp only [hcl, if_false]
      refine ⟨_, rfl, by omega, le_refl _, List.prefix_refl _⟩
  | false =>
    simp only [Bool.false_eq_true, if_false]
    by_cases hcl : c = columns.length
    · subst hcl
      simp only [if_true, List.getElem?_concat_length]
      by_cases hl : length = 0
      · simp only [hl, if_true]
        refine ⟨_, rfl, ?_, ?_, ?_⟩
        · simp
        · simp
        · rw [map_header_set]
          · simp
          · intro col hcol
            simp at hcol
            subst hcol
            rfl
      · simp only [hl, if_false, htext, Option.map_some']
        refine ⟨_, rfl, ?_, ?_, ?_⟩
        · simp
        · simp
        · rw [map_header_set]
          · simp
          · intro col hcol
            simp at hcol
            subst hcol
            rfl
    · have hlt : c < columns.length := by omega
      simp only [hcl, if_false, List.getElem?_eq_getElem hlt]
      by_cases hl : length = 0
      · simp only [hl, if_true]
        refine ⟨_, rfl, ?_, ?_, ?_⟩
        · simpa using hlt
        · simp
        · rw [map_header_set]
          intro col hcol
          simp [List.getElem?_eq_getElem hlt] at hcol
          subst hcol
          rfl
      · simp only [hl, if_false, htext, Option.map_some']
        refine ⟨_, rfl, ?_, ?_, ?_⟩
        · simpa using hlt
        · simp
        · rw [map_header_set]
          intro col hcol
          simp [List.getElem?_eq_getElem hlt] at hcol
          subst hcol
          rfl

theorem scanFields_some {V : Type} (atof : List Char → V) (uninit d : V) (line : List Char)
    (isHeader : Bool) :
    ∀ (budget c start : Nat) (columns : List (Column V)),
      line.length < budget + start → c ≤ columns.length → start ≤ line.length →
      ∃ n cols, scanFields atof uninit d line isHeader budget c start columns = some (n, cols) ∧
        n < cols.length ∧ c ≤ n ∧ columns.length ≤ cols.length ∧
        columns.map (fun x => x.header) <+: cols.map (fun x => x.header) := by
  intro budget
  induction budget with
  | zero => intro c start columns h1 _ h3; omega
  | succ budget ih =>
    intro c start columns h1 hc hs
    unfold scanFields
    cases hp : find_first_of line [' ', '\t'] start with
    | none =>
      obtain ⟨cols, hcols, h2, h3, h4⟩ :=
        scanField_some atof uninit d line isHeader c start (-1) columns hc hs
      simp only [hcols]
      exact ⟨c, cols, by simp, h2, le_refl _, h3, h4⟩
    | some pos =>
      obtain ⟨hp1, hp2⟩ := find_first_of_bounds line _ start pos hp
      obtain ⟨cols, hcols, h2, h3, h4⟩ :=
        scanField_some atof uninit d line isHeader c start ((pos : Int) - start) columns hc hs
      simp only [hcols]
      have hne : ¬ ((pos : Int) + 1 = -1) := by omega
      simp only [hne, if_false]
      have hnat : ((pos : Int) + 1).toNat = pos + 1 := by omega
      rw [hnat]
      obtain ⟨n, cols2, hres, g1, g2, g3, g4⟩ :=
        ih (c + 1) (pos + 1) cols (by omega) (by omega) (by omega)
      exact ⟨n, cols2, hres, g1, by omega, by omega, h4.trans g4⟩

theorem head_of_prefix {V : Type} (a b : List (Column V)) (x : Column V)
    (hp : a.map (fun c => c.header) <+: b.map (fun c => c.header)) (hx : a.head? = some x) :
    ∃ y, b.head? = some y ∧ y.header = x.header := by
  cases a with
  | nil => simp at hx
  | cons a0 as =>
    simp at hx
    subst hx
    cases b with
    | nil => simp at hp
    | cons b0 bs =>
      refine ⟨b0, rfl, ?_⟩
      obtain ⟨t, ht⟩ := hp
      simp at ht
      exact ht.1.symm

theorem nextRowLoop_spec {V : Type} (atof : List Char → V) (uninit : V) :
    ∀ (lines : List (List Char)) (p : OutputParser V),
      ∃ count q, nextRowLoop atof uninit lines p = some (count, q) ∧ RowStep lines p count q := by
  intro lines
  induction lines with
  | nil =>
    intro p
    refine ⟨0, _, rfl, Or.inl rfl, ⟨[], rfl, le_refl _, fun h => absurd rfl h⟩, rfl, rfl, rfl,
      List.prefix_refl _, Or.inl rfl⟩
  | cons line rest ih =>
    intro p
    cases line with
    | nil =>
      obtain ⟨count, q, hq, h1, ⟨pending, h2, h3, h4⟩, h5, h6, h7, h8, h9⟩ :=
        ih { p with input := some rest }
      refine ⟨count, q, ?_, h1, ⟨pending, h2, ?_, ?_⟩, h5, h6, h7, h8, h9⟩
      · simpa [nextRowLoop] using hq
      · simp; omega
      · intro hc; have := h4 hc; simp; omega
    | cons l tail =>
      unfold nextRowLoop
      by_cases hend : substr (l :: tail) 0 6 = some "End of".data
      · simp only [hend, if_true]
        refine ⟨0, _, rfl, Or.inl rfl, ⟨rest, rfl, by simp, fun h => absurd rfl h⟩, rfl, rfl, rfl,
          List.prefix_refl _, Or.inl rfl⟩
      · simp only [hend, if_false]
        cases hh : isHeaderChar l with
        | false =>
          simp only [Bool.false_eq_true, if_false]
          obtain ⟨n, cols, hscan, g1, _, g3, g4⟩ :=
            scanFields_some atof uninit p.defaultValue (l :: tail) false
              ((l :: tail).length + 1) 0 0 p.columns (by omega) (Nat.zero_le _) (Nat.zero_le _)
          simp only [hscan]
          exact ⟨n, _, rfl, Or.inr g1, ⟨rest, rfl, by simp, fun _ => by simp⟩, rfl, rfl, rfl,
            g4, Or.inl rfl⟩
        | true =>
          simp only [if_true]
          obtain ⟨n, cols, hscan, g1, _, g3, g4⟩ :=
            scanFields_some atof uninit p.defaultValue (l :: tail) true
              ((l :: tail).length + 1) 0 0 p.columns (by omega) (Nat.zero_le _) (Nat.zero_le _)
          simp only [hscan]
          have hpos : 0 < cols.length := by omega
          simp only [List.getElem?_eq_getElem hpos]
          obtain ⟨count, q, hq, h1, ⟨pending, h2, h3, h4⟩, h5, h6, h7, h8, h9⟩ :=
            ih { p with input := some rest, raw := false, columns := cols,
                        isXycePRN := cols[0].header == "Index" }
          refine ⟨count, q, hq, h1, ⟨pending, h2, ?_, ?_⟩, h5, h6, h7, ?_, Or.inr ?_⟩
          · simp; omega
          · intro hc; have := h4 hc; simp; omega
          · exact g4.trans h8
          · rcases h9 with h9 | h9
            · have hhead : cols.head? = some cols[0] := by
                cases cols with
                | nil => simp at hpos
                | cons c0 cs => rfl
              obtain ⟨y, hy1, hy2⟩ := head_of_prefix cols q.columns cols[0] h8 hhead
              exact ⟨y, hy1, by rw [h9, hy2]⟩
            · exact h9

theorem storeValues_some {V : Type} (rows : Int) :
    ∀ (n c : Nat) (columns : List (Column V)), c + n ≤ columns.length →
      ∃ cols, storeValues rows n c columns = some cols ∧ cols.length = columns.length ∧
        cols.map (fun x => x.header) = columns.map (fun x => x.header) := by
  intro n
  induction n with
  | zero => intro c columns _; exact ⟨columns, rfl, rfl, rfl⟩
  | succ n ih =>
    intro c columns h
    have hlt : c < columns.length := by omega
    unfold storeValues
    simp only [List.getElem?_eq_getElem hlt]
    obtain ⟨cols, h1, h2, h3⟩ := ih (c + 1)
      (columns.set c
        { (if columns[c].values.isEmpty then { columns[c] with startRow := rows - 1 } else columns[c]) with
          values := (if columns[c].values.isEmpty then { columns[c] with startRow := rows - 1 }
            else columns[c]).values ++
            [(if columns[c].values.isEmpty then { columns[c] with startRow := rows - 1 }
              else columns[c]).value] })
      (by simp; omega)
    refine ⟨cols, h1, by simpa using h2, ?_⟩
    rw [h3, map_header_set]
    intro col hcol
    simp [List.getElem?_eq_getElem hlt] at hcol
    subst hcol
    split <;> rfl

theorem fillValues_some {V : Type} (d : V) :
    ∀ (n c : Nat) (columns : List (Column V)), c + n ≤ columns.length →
      ∃ cols, fillValues d n c columns = some cols ∧ cols.length = columns.length ∧
        cols.map (fun x => x.header) = columns.map (fun x => x.header) := by
  intro n
  induction n with
  | zero => intro c columns _; exact ⟨columns, rfl, rfl, rfl⟩
  | succ n ih =>
    intro c columns h
    have hlt : c < columns.length := by omega
    unfold fillValues
    simp only [List.getElem?_eq_getElem hlt]
    obtain ⟨cols, h1, h2, h3⟩ := ih (c + 1)
      (columns.set c { columns[c] with values := columns[c].values ++ [d] }) (by simp; omega)
    refine ⟨cols, h1, by simpa using h2, ?_⟩
    rw [h3, map_header_set]
    intro col hcol
    simp [List.getElem?_eq_getElem hlt] at hcol
    subst hcol
    rfl

theorem storeRow_some {V : Type} (p : OutputParser V) (count : Nat)
    (h : count ≤ p.columns.length) :
    ∃ cols, storeRow p count = some { p with columns := cols } ∧
      cols.length = p.columns.length ∧
      cols.map (fun x => x.header) = p.columns.map (fun x => x.header) := by
  obtain ⟨cols1, h1, h2, h3⟩ := storeValues_some p.rows count 0 p.columns (by omega)
  obtain ⟨cols2, g1, g2, g3⟩ :=
    fillValues_some p.defaultValue (cols1.length - count) count cols1 (by omega)
  refine ⟨cols2, ?_, by omega, by rw [g3, h3]⟩
  unfold storeRow
  simp only [h1, g1, Option.map_some']

theorem Reach.refl {V : Type} (p : OutputParser V) : Reach p p :=
  ⟨rfl, rfl, rfl, List.prefix_refl _, Or.inl rfl⟩

theorem Reach.trans {V : Type} {p q r : OutputParser V} (h1 : Reach p q) (h2 : Reach q r) :
    Reach p r := by
  obtain ⟨a1, a2, a3, a4, a5⟩ := h1
  obtain ⟨b1, b2, b3, b4, b5⟩ := h2
  refine ⟨b1.trans a1, b2.trans a2, b3.trans a3, a4.trans b4, ?_⟩
  rcases b5 with b5 | b5
  · rcases a5 with a5 | ⟨first, a5, a6⟩
    · exact Or.inl (b5.trans a5)
    · obtain ⟨y, hy1, hy2⟩ := head_of_prefix q.columns r.columns first b4 a5
      exact Or.inr ⟨y, hy1, by rw [b5, a6, hy2]⟩
  · exact Or.inr b5

theorem RowStep.reach {V : Type} {lines : List (List Char)} {p q : OutputParser V} {count : Nat}
    (h : RowStep lines p count q) : Reach p q :=
  ⟨h.2.2.1, h.2.2.2.1, h.2.2.2.2.1, h.2.2.2.2.2.1, h.2.2.2.2.2.2⟩

theorem parseLoop_some {V : Type} (atof : List Char → V) (uninit : V) :
    ∀ (budget : Nat) (p : OutputParser V) (lines : List (List Char)),
      p.input = some lines → lines.length < budget →
      ∃ q, parseLoop atof uninit budget p = some q ∧ Reach p q := by
  intro budget
  induction budget with
  | zero => intro p lines _ h; omega
  | succ budget ih =>
    intro p lines hin hlen
    obtain ⟨count, q, hq, hstep⟩ := nextRowLoop_spec atof uninit lines p
    have hnext : p.nextRow atof uninit = some (count, q) := by
      unfold OutputParser.nextRow
      rw [hin]
      exact hq
    unfold parseLoop
    simp only [hnext]
    by_cases hc : count = 0
    · simp only [hc, if_true]
      exact ⟨q, rfl, hstep.reach⟩
    · simp only [hc, if_false]
      have hreach := hstep.reach
      obtain ⟨h1, ⟨pending, h2, h3, h4⟩, _⟩ := hstep
      have hcount : count ≤ q.columns.length := by
        rcases h1 with h1 | h1
        · exact absurd h1 hc
        · omega
      obtain ⟨cols, hs1, hs2, hs3⟩ := storeRow_some q count hcount
      simp only [hs1]
      obtain ⟨r, hr1, hr2⟩ := ih { q with columns := cols } pending h2 (by have := h4 hc; omega)
      refine ⟨r, hr1, hreach.trans (Reach.trans ?_ hr2)⟩
      refine ⟨rfl, rfl, rfl, by rw [hs3], ?_⟩
      exact Or.inl rfl

theorem parseRows_some {V : Type} (atof : List Char → V) (uninit : V) (p : OutputParser V)
    (file : Option String) (d : V) :
    ∃ r, p.parseRows atof uninit file d = some r ∧
      Reach (({ p with defaultValue := d }).open file) r :=
  parseLoop_some atof uninit _ _ (ifstream file) rfl (Nat.lt_succ_self _)

theorem parseColumnFile_length {V : Type} :
    ∀ (lines : List (List Char)) (columns : List (Column V)),
      (parseColumnFile lines columns).length = columns.length := by
  intro lines
  induction lines with
  | nil => intro columns; cases columns <;> simp [parseColumnFile]
  | cons line rest ih =>
    intro columns
    cases columns with
    | nil => simp [parseColumnFile]
    | cons c cs => simp [parseColumnFile, ih]

theorem parseColumnFile_head {V : Type} (lines : List (List Char)) (columns : List (Column V))
    (x : Column V) (hx : columns.head? = some x) (hne : x.header.isEmpty = false) :
    ∃ y, (parseColumnFile lines columns).head? = some y ∧ y.header = x.header := by
  cases columns with
  | nil => simp at hx
  | cons c cs =>
    simp at hx
    subst hx
    cases lines with
    | nil => exact ⟨c, by simp [parseColumnFile], rfl⟩
    | cons line rest => exact ⟨c, by simp [parseColumnFile, hne], rfl⟩

theorem determineTime_spec {V : Type} :
    ∀ (columns : List (Column V)) (k m : Nat) (t : Option Nat) (f : Bool),
      ((∀ c ∈ columns, potentialMatch c.header ≤ m) ∧ determineTime columns k (m, t, f) = (m, t, f)) ∨
      ∃ i c, columns[i]? = some c ∧ m < potentialMatch c.header ∧
        determineTime columns k (m, t, f) = (potentialMatch c.header, some (k + i), true) ∧
        (∀ x ∈ columns, potentialMatch x.header ≤ potentialMatch c.header) ∧
        ∀ j x, j < i → columns[j]? = some x → potentialMatch x.header < potentialMatch c.header := by
  intro columns
  induction columns with
  | nil => intro k m t f; left; exact ⟨by simp, rfl⟩
  | cons c0 rest ih =>
    intro k m t f
    by_cases hgt : potentialMatch c0.header > m
    · have hdef : determineTime (c0 :: rest) k (m, t, f) =
          determineTime rest (k + 1) (potentialMatch c0.header, some k, true) := by
        simp [determineTime, hgt]
      rcases ih (k + 1) (potentialMatch c0.header) (some k) true with ⟨h1, h2⟩ | ⟨i, c, h1, h2, h3, h4, h5⟩
      · right
        refine ⟨0, c0, by simp, hgt, ?_, ?_, ?_⟩
        · rw [hdef, h2]; rfl
        · intro x hx
          rcases List.mem_cons.mp hx with hx | hx
          · rw [hx]
          · exact h1 x hx
        · intro j x hj _; omega
      · right
        refine ⟨i + 1, c, by simpa using h1, by omega, ?_, ?_, ?_⟩
        · rw [hdef, h3]
          have : k + 1 + i = k + (i + 1) := by omega
          rw [this]
        · intro x hx
          rcases List.mem_cons.mp hx with hx | hx
          · rw [hx]; omega
          · exact h4 x hx
        · intro j x hj hjx
          cases j with
          | zero =>
            simp at hjx
            rw [← hjx]
            exact h2
          | succ j => exact h5 j x (by omega) (by simpa using hjx)
    · have hdef : determineTime (c0 :: rest) k (m, t, f) = determineTime rest (k + 1) (m, t, f) := by
        simp [determineTime, hgt]
      rcases ih (k + 1) m t f with ⟨h1, h2⟩ | ⟨i, c, h1, h2, h3, h4, h5⟩
      · left
        refine ⟨?_, by rw [hdef, h2]⟩
        intro x hx
        rcases List.mem_cons.mp hx with hx | hx
        · rw [hx]; omega
        · exact h1 x hx
      · right
        refine ⟨i + 1, c, by simpa using h1, h2, ?_, ?_, ?_⟩
        · rw [hdef, h3]
          have : k + 1 + i = k + (i + 1) := by omega
          rw [this]
        · intro x hx
          rcases List.mem_cons.mp hx with hx | hx
          · rw [hx]; omega
          · exact h4 x hx
        · intro j x hj hjx
          cases j with
          | zero =>
            simp at hjx
            rw [← hjx]
            omega
          | succ j => exact h5 j x (by omega) (by simpa using hjx)

theorem parseRows_initial {V : Type} (atof : List Char → V) (uninit : V) (p : OutputParser V)
    (file : Option String) (d : V) (r : OutputParser V)
    (hr : p.parseRows atof uninit file d = some r) :
    r.timeFound = false ∧ r.time = none ∧ r.defaultValue = d ∧
      (r.isXycePRN = true → ∃ first, r.columns.head? = some first ∧ first.header = "Index") := by
  obtain ⟨r0, h0, h1, h2, h3, _, h5⟩ := parseRows_some atof uninit p file d
  rw [hr] at h0
  cases h0
  refine ⟨h1, h2, h3, ?_⟩
  intro hx
  rcases h5 with h5 | ⟨first, h5, h6⟩
  · rw [hx] at h5
    simp [OutputParser.open] at h5
  · refine ⟨first, h5, ?_⟩
    rw [hx] at h6
    exact (beq_iff_eq.mp h6.symm)

theorem potentialMatch_Index : potentialMatch "Index" = 0 := by decide

theorem firstOf_takeWhile : ∀ (l : List Char),
    (match firstOf [' ', '\t'] l with
      | none => l
      | some k => l.take k) = firstField l := by
  intro l
  induction l with
  | nil => rfl
  | cons ch rest ih =>
    unfold firstField at ih ⊢
    by_cases hd : ch ∈ [' ', '\t']
    · simp only [List.mem_cons, List.mem_singleton, List.not_mem_nil, or_false] at hd
      rcases hd with hd | hd <;> subst hd <;> simp [firstOf, List.takeWhile_cons]
    · have hb : (!(ch == ' ' || ch == '\t')) = true := by
        simp at hd
        simp [hd]
      simp only [firstOf, hd, if_false, List.takeWhile_cons, hb, if_true]
      rw [← ih]
      cases firstOf [' ', '\t'] rest <;> simp

theorem substr_firstField (line : List Char) :
    substr line 0 (match find_first_of line [' ', '\t'] 0 with
      | none => -1
      | some pos => (pos : Int) - (0 : Nat)) = some (firstField line) := by
  have h := firstOf_takeWhile line
  unfold find_first_of
  simp only [List.drop_zero]
  cases hf : firstOf [' ', '\t'] line with
  | none =>
    rw [hf] at h
    simp only at h
    rw [← h]
    simp [substr]
  | some k =>
    rw [hf] at h
    simp only at h
    have hk : ¬ ((k : Int) < 0) := by omega
    rw [← h]
    simp [substr, hk]

theorem scanFields_first_header {V : Type} (atof : List Char → V) (uninit d : V)
    (line : List Char) (budget : Nat) (hb : line.length < budget + 1) :
    ∃ n cols first, scanFields atof uninit d line true (budget + 1) 0 0 [] = some (n, cols) ∧
      cols.head? = some first ∧ first.header = String.mk (firstField line) := by
  unfold scanFields
  have hsub := substr_firstField line
  cases hp : find_first_of line [' ', '\t'] 0 with
  | none =>
    rw [hp] at hsub
    simp only [scanField, if_true, List.length_nil, hsub, Option.map_some']
    exact ⟨0, [Column.construct (String.mk (firstField line)) uninit],
      Column.construct (String.mk (firstField line)) uninit, by simp, rfl, rfl⟩
  | some pos =>
    rw [hp] at hsub
    obtain ⟨_, hp2⟩ := find_first_of_bounds line _ 0 pos hp
    simp only [scanField, if_true, List.length_nil, hsub, Option.map_some']
    have hne : ¬ ((pos : Int) + 1 = -1) := by omega
    simp only [hne, if_false]
    have hnat : ((pos : Int) + 1).toNat = pos + 1 := by omega
    rw [hnat]
    obtain ⟨n, cols, hres, _, _, _, g4⟩ :=
      scanFields_some atof uninit d line true budget (0 + 1) (pos + 1)
        ([] ++ [Column.construct (String.mk (firstField line)) uninit])
        (by omega) (by simp) (by omega)
    obtain ⟨y, hy1, hy2⟩ := head_of_prefix _ cols
      (Column.construct (String.mk (firstField line)) uninit) g4 rfl
    exact ⟨n, cols, y, hres, hy1, hy2⟩

theorem nextRowLoop_first_header {V : Type} (atof : List Char → V) (uninit : V)
    (l : Char) (tail : List Char) (rest : List (List Char))
    (hheader : isHeaderChar l = true) (hend : substr (l :: tail) 0 6 ≠ some "End of".data) :
    ∀ (blanks : Nat) (p : OutputParser V), p.columns = [] →
      ∃ p1 first, nextRowLoop atof uninit (List.replicate blanks [] ++ (l :: tail) :: rest) p =
          nextRowLoop atof uninit rest p1 ∧
        p1.input = some rest ∧ p1.timeFound = p.timeFound ∧ p1.time = p.time ∧
        p1.defaultValue = p.defaultValue ∧ p1.rows = p.rows ∧
        p1.columns.head? = some first ∧ first.header = String.mk (firstField (l :: tail)) ∧
        p1.isXycePRN = (first.header == "Index") := by
  intro blanks
  induction blanks with
  | zero =>
    intro p hp
    obtain ⟨n, cols, first, hscan, hhead, hfirst⟩ :=
      scanFields_first_header atof uninit p.defaultValue (l :: tail) (l :: tail).length
        (Nat.lt_succ_self _)
    have hget : cols[0]? = some first := by
      cases cols with
      | nil => simp at hhead
      | cons a b => simpa using hhead
    refine ⟨{ p with input := some rest, raw := false, columns := cols,
                     isXycePRN := first.header == "Index" }, first, ?_, rfl, rfl, rfl, rfl, rfl,
      hhead, hfirst, rfl⟩
    simp only [List.replicate_zero, List.nil_append]
    conv => lhs; unfold nextRowLoop
    simp only [hend, if_false, hheader, if_true, hp, hscan, hget]
  | succ blanks ih =>
    intro p hp
    obtain ⟨p1, first, h1, h2, h3, h4, h5, h6, h7⟩ :=
      ih { p with input := some (List.replicate blanks [] ++ (l :: tail) :: rest) } hp
    refine ⟨p1, first, ?_, h2, h3, h4, h5, h6, h7⟩
    rw [← h1]
    simp [List.replicate_succ, nextRowLoop]

theorem parseColumnFile_head_eq {V : Type} (lines : List (List Char)) (columns : List (Column V))
    (x : Column V) (hx : columns.head? = some x) (hne : x.header.isEmpty = false) :
    ∃ others, parseColumnFile lines columns = x :: others := by
  cases columns with
  | nil => simp at hx
  | cons c cs =>
    simp at hx
    subst hx
    cases lines with
    | nil => exact ⟨cs, by simp [parseColumnFile]⟩
    | cons line rest => exact ⟨parseColumnFile rest cs, by simp [parseColumnFile, hne]⟩

theorem parseLoop_congr {V : Type} (atof : List Char → V) (uninit : V) (budget : Nat)
    (p p1 : OutputParser V) (h : p.nextRow atof uninit = p1.nextRow atof uninit) :
    parseLoop atof uninit (budget + 1) p = parseLoop atof uninit (budget + 1) p1 := by
  simp only [parseLoop, h]

theorem Reach.head {V : Type} {p q : OutputParser V} (h : Reach p q) (first : Column V)
    (h1 : p.columns.head? = some first) (h2 : p.isXycePRN = (first.header == "Index")) :
    ∃ y, q.columns.head? = some y ∧ y.header = first.header ∧
      q.isXycePRN = (first.header == "Index") := by
  obtain ⟨_, _, _, a4, a5⟩ := h
  obtain ⟨y, hy1, hy2⟩ := head_of_prefix p.columns q.columns first a4 h1
  refine ⟨y, hy1, hy2, ?_⟩
  rcases a5 with a5 | ⟨z, a5, a6⟩
  · rw [a5, h2]
  · rw [hy1] at a5
    cases a5
    rw [a6, hy2]

theorem firstOf_countDelims : ∀ (l : List Char),
    (match firstOf [' ', '\t'] l with
      | none => 0
      | some k => 1 + countDelims (l.drop (k + 1))) = countDelims l := by
  intro l
  induction l with
  | nil => rfl
  | cons ch rest ih =>
    unfold countDelims at ih ⊢
    by_cases hd : ch ∈ [' ', '\t']
    · simp only [List.mem_cons, List.mem_singleton, List.not_mem_nil, or_false] at hd
      rcases hd with hd | hd <;> subst hd <;> simp [firstOf, List.countP_cons, Nat.add_comm]
    · have hb : (ch == ' ' || ch == '\t') = false := by
        simp at hd
        simp [hd]
      simp only [firstOf, hd, if_false, List.countP_cons, hb]
      rw [← ih]
      cases firstOf [' ', '\t'] rest <;> simp

theorem find_first_of_countDelims (line : List Char) (start : Nat) :
    (match find_first_of line [' ', '\t'] start with
      | none => 0
      | some pos => 1 + countDelims (line.drop (pos + 1))) = countDelims (line.drop start) := by
  have h := firstOf_countDelims (line.drop start)
  unfold find_first_of
  cases hf : firstOf [' ', '\t'] (line.drop start) with
  | none => rw [hf] at h; simpa using h
  | some k =>
    rw [hf] at h
    simp only [Option.map_some'] at h ⊢
    rw [← h, List.drop_drop]
    congr 3
    omega

/-- The form of the columns after one pass of the loop body: the column with
index `c` is appended when it does not exist, and then only its `value` and
`textWidth` can change. -/
theorem scanField_cases {V : Type} (atof : List Char → V) (uninit d : V) (line : List Char)
    (isHeader : Bool) (c start : Nat) (length : Int) (columns : List (Column V))
    (hc : c ≤ columns.length) (hs : start ≤ line.length) :
    ∃ (h : String) (v : V) (w : Int) (col : Column V),
      (if c = columns.length then columns ++ [Column.construct h uninit] else columns)[c]? = some col ∧
      scanField atof uninit d line isHeader c start length columns =
        some ((if c = columns.length then columns ++ [Column.construct h uninit] else columns).set c
          { col with value := v, textWidth := w }) := by
  obtain ⟨text, htext⟩ := substr_some line start length hs
  unfold scanField
  cases isHeader with
  | true =>
    simp only [if_true]
    by_cases hcl : c = columns.length
    · subst hcl
      refine ⟨String.mk text, uninit, 0, Column.construct (String.mk text) uninit, by simp, ?_⟩
      simp [htext, Column.construct]
    · have hlt : c < columns.length := by omega
      refine ⟨"", columns[c].value, columns[c].textWidth, columns[c], by simp [hcl, hlt], ?_⟩
      simp only [hcl, if_false]
      congr 1
      show columns = columns.set c columns[c]
      apply List.ext_getElem?
      intro i
      by_cases hi : c = i
      · subst hi; simp [hlt]
      · simp [List.getElem?_set_ne hi]
  | false =>
    simp only [Bool.false_eq_true, if_false]
    by_cases hcl : c = columns.length
    · subst hcl
      simp only [if_true, List.getElem?_concat_length]
      by_cases hl : length = 0
      · exact ⟨"", d, 0, Column.construct "" uninit, rfl, by simp [hl, Column.construct]⟩
      · exact ⟨"", atof text, max 0 length, Column.construct "" uninit, rfl,
          by simp [hl, htext, Column.construct]⟩
    · have hlt : c < columns.length := by omega
      simp only [hcl, if_false, List.getElem?_eq_getElem hlt]
      by_cases hl : length = 0
      · exact ⟨"", d, columns[c].textWidth, columns[c], rfl, by simp [hl]⟩
      · exact ⟨"", atof text, max columns[c].textWidth length, columns[c], rfl,
          by simp [hl, htext]⟩

theorem scanField_length {V : Type} (atof : List Char → V) (uninit d : V) (line : List Char)
    (isHeader : Bool) (c start : Nat) (length : Int) (columns : List (Column V))
    (hc : c ≤ columns.length) (hs : start ≤ line.length) :
    ∃ cols, scanField atof uninit d line isHeader c start length columns = some cols ∧
      cols.length = max columns.length (c + 1) := by
  obtain ⟨h, v, w, col, _, h2⟩ :=
    scanField_cases atof uninit d line isHeader c start length columns hc hs
  refine ⟨_, h2, ?_⟩
  by_cases hcl : c = columns.length
  · simp [hcl]
  · simp only [hcl, if_false, List.length_set]
    omega

theorem scanField_forall {V : Type} (Q : Column V → Prop)
    (hnew : ∀ h u, Q (Column.construct h u))
    (hupd : ∀ (c : Column V) v w, Q c → Q { c with value := v, textWidth := w })
    (atof : List Char → V) (uninit d : V) (line : List Char)
    (isHeader : Bool) (c start : Nat) (length : Int) (columns cols : List (Column V))
    (hc : c ≤ columns.length) (hs : start ≤ line.length)
    (hQ : ∀ x ∈ columns, Q x)
    (hres : scanField atof uninit d line isHeader c start length columns = some cols) :
    ∀ x ∈ cols, Q x := by
  obtain ⟨h, v, w, col, h1, h2⟩ :=
    scanField_cases atof uninit d line isHeader c start length columns hc hs
  rw [hres] at h2
  cases h2
  have hbase : ∀ x ∈ (if c = columns.length then columns ++ [Column.construct h uninit]
      else columns), Q x := by
    intro x hx
    by_cases hcl : c = columns.length
    · simp only [hcl, if_true, List.mem_append, List.mem_singleton] at hx
      rcases hx with hx | hx
      · exact hQ x hx
      · rw [hx]; exact hnew h uninit
    · simp only [hcl, if_false] at hx
      exact hQ x hx
  intro x hx
  rcases List.mem_or_eq_of_mem_set hx with hx | hx
  · exact hbase x hx
  · rw [hx]
    exact hupd col v w (hbase col (List.getElem?_mem h1))

theorem scanFields_count {V : Type} (atof : List Char → V) (uninit d : V) (line : List Char)
    (isHeader : Bool) :
    ∀ (budget c start : Nat) (columns : List (Column V)),
      line.length < budget + start → c ≤ columns.length → start ≤ line.length →
      ∃ cols, scanFields atof uninit d line isHeader budget c start columns =
          some (c + countDelims (line.drop start), cols) ∧
        cols.length = max columns.length (c + countDelims (line.drop start) + 1) := by
  intro budget
  induction budget with
  | zero => intro c start columns h1 _ h3; omega
  | succ budget ih =>
    intro c start columns h1 hc hs
    have hcount := find_first_of_countDelims line start
    unfold scanFields
    cases hp : find_first_of line [' ', '\t'] start with
    | none =>
      rw [hp] at hcount
      obtain ⟨cols, hcols, hlen⟩ :=
        scanField_length atof uninit d line isHeader c start (-1) columns hc hs
      simp only [hcols]
      simp only at hcount
      rw [← hcount]
      exact ⟨cols, by simp, by simpa using hlen⟩
    | some pos =>
      rw [hp] at hcount
      simp only at hcount
      obtain ⟨hp1, hp2⟩ := find_first_of_bounds line _ start pos hp
      obtain ⟨cols, hcols, hlen⟩ :=
        scanField_length atof uninit d line isHeader c start ((pos : Int) - start) columns hc hs
      simp only [hcols]
      have hne : ¬ ((pos : Int) + 1 = -1) := by omega
      simp only [hne, if_false]
      have hnat : ((pos : Int) + 1).toNat = pos + 1 := by omega
      rw [hnat]
      obtain ⟨cols2, hres, hlen2⟩ := ih (c + 1) (pos + 1) cols (by omega) (by omega) (by omega)
      have e : c + 1 + countDelims (List.drop (pos + 1) line) =
          c + countDelims (List.drop start line) := by rw [← hcount, Nat.add_assoc]
      rw [e] at hres hlen2
      refine ⟨cols2, hres, ?_⟩
      rw [hlen2, hlen]
      omega

theorem scanFields_forall {V : Type} (Q : Column V → Prop)
    (hnew : ∀ h u, Q (Column.construct h u))
    (hupd : ∀ (c : Column V) v w, Q c → Q { c with value := v, textWidth := w })
    (atof : List Char → V) (uninit d : V) (line : List Char) (isHeader : Bool) :
    ∀ (budget c start : Nat) (columns : List (Column V)) (n : Nat) (cols : List (Column V)),
      c ≤ columns.length → start ≤ line.length → (∀ x ∈ columns, Q x) →
      scanFields atof uninit d line isHeader budget c start columns = some (n, cols) →
      ∀ x ∈ cols, Q x := by
  intro budget
  induction budget with
  | zero => intro c start columns n cols _ _ _ h; simp [scanFields] at h
  | succ budget ih =>
    intro c start columns n cols hc hs hQ hres
    unfold scanFields at hres
    cases hp : find_first_of line [' ', '\t'] start with
    | none =>
      rw [hp] at hres
      obtain ⟨cols1, hcols, _⟩ :=
        scanField_length atof uninit d line isHeader c start (-1) columns hc hs
      simp only [hcols] at hres
      simp at hres
      rw [← hres.2]
      exact scanField_forall Q hnew hupd atof uninit d line isHeader c start (-1) columns cols1
        hc hs hQ hcols
    | some pos =>
      rw [hp] at hres
      obtain ⟨hp1, hp2⟩ := find_first_of_bounds line _ start pos hp
      obtain ⟨cols1, hcols, hlen⟩ :=
        scanField_length atof uninit d line isHeader c start ((pos : Int) - start) columns hc hs
      simp only [hcols] at hres
      have hne : ¬ ((pos : Int) + 1 = -1) := by omega
      simp only [hne, if_false] at hres
      have hnat : ((pos : Int) + 1).toNat = pos + 1 := by omega
      rw [hnat] at hres
      exact ih (c + 1) (pos + 1) cols1 n cols (by omega) (by omega)
        (scanField_forall Q hnew hupd atof uninit d line isHeader c start _ columns cols1
          hc hs hQ hcols) hres

theorem data_line_not_end (l : Char) (tail : List Char) (h : isHeaderChar l = false) :
    substr (l :: tail) 0 6 ≠ some "End of".data := by
  intro hsub
  have hl : l = 'E' := by
    simp [substr] at hsub
    exact hsub.1
  rw [hl] at h
  exact absurd h (by decide)

theorem nextRowLoop_data_line {V : Type} (atof : List Char → V) (uninit : V)
    (l : Char) (tail : List Char) (rest : List (List Char)) (hdata : isHeaderChar l = false) :
    ∀ (skipped : List (List Char)) (p : OutputParser V),
      (∀ s ∈ skipped, s = [] ∨ isHeaderLine s = true) →
      ∃ q, nextRowLoop atof uninit (skipped ++ (l :: tail) :: rest) p =
          some (countDelims (l :: tail), q) ∧
        q.rows = p.rows + 1 ∧ q.input = some rest := by
  intro skipped
  induction skipped with
  | nil =>
    intro p _
    obtain ⟨cols, hscan, _⟩ := scanFields_count atof uninit p.defaultValue (l :: tail) false
      ((l :: tail).length + 1) 0 0 p.columns (by omega) (Nat.zero_le _) (Nat.zero_le _)
    simp only [List.drop_zero, Nat.zero_add] at hscan
    refine ⟨{ p with input := some rest, columns := cols, rows := p.rows + 1 }, ?_, rfl, rfl⟩
    simp only [List.nil_append]
    unfold nextRowLoop
    simp only [data_line_not_end l tail hdata, if_false, hdata, Bool.false_eq_true, hscan]
  | cons s more ih =>
    intro p hskip
    have hmore : ∀ s ∈ more, s = [] ∨ isHeaderLine s = true :=
      fun x hx => hskip x (List.mem_cons_of_mem _ hx)
    rcases hskip s (List.mem_cons_self _ _) with hs | hs
    · subst hs
      obtain ⟨q, h1, h2, h3⟩ := ih { p with input := some (more ++ (l :: tail) :: rest) } hmore
      exact ⟨q, by simpa [nextRowLoop] using h1, h2, h3⟩
    · cases s with
      | nil => simp [isHeaderLine] at hs
      | cons l0 tail0 =>
        simp only [isHeaderLine, Bool.and_eq_true, Bool.not_eq_true', decide_eq_false_iff_not] at hs
        obtain ⟨hh, hend⟩ := hs
        obtain ⟨n, cols, hscan, g1, _, _, _⟩ :=
          scanFields_some atof uninit p.defaultValue (l0 :: tail0) true
            ((l0 :: tail0).length + 1) 0 0 p.columns (by omega) (Nat.zero_le _) (Nat.zero_le _)
        have hpos : 0 < cols.length := by omega
        obtain ⟨q, h1, h2, h3⟩ :=
          ih { p with input := some (more ++ (l :: tail) :: rest), raw := false, columns := cols, isXycePRN := cols[0].header == "Index" } hmore
        refine ⟨q, ?_, h2, h3⟩
        rw [← h1]
        simp only [List.cons_append]
        conv => lhs; unfold nextRowLoop
        simp only [hend, if_false, hh, if_true, hscan, List.getElem?_eq_getElem hpos]

theorem nextRowLoop_raw {V : Type} (atof : List Char → V) (uninit : V) :
    ∀ (lines : List (List Char)) (p : OutputParser V),
      ∃ count q consumed pending, nextRowLoop atof uninit lines p = some (count, q) ∧
        lines = consumed ++ pending ∧ q.input = some pending ∧
        q.raw = (p.raw && consumed.all fun l => !isHeaderLine l) := by
  intro lines
  induction lines with
  | nil =>
    intro p
    exact ⟨0, _, [], [], rfl, rfl, rfl, by simp⟩
  | cons line rest ih =>
    intro p
    cases line with
    | nil =>
      obtain ⟨count, q, consumed, pending, h1, h2, h3, h4⟩ := ih { p with input := some rest }
      refine ⟨count, q, [] :: consumed, pending, by simpa [nextRowLoop] using h1, by simp [h2],
        h3, ?_⟩
      rw [h4]
      simp [isHeaderLine]
    | cons l tail =>
      unfold nextRowLoop
      by_cases hend : substr (l :: tail) 0 6 = some "End of".data
      · simp only [hend, if_true]
        refine ⟨0, _, [l :: tail], rest, rfl, rfl, rfl, ?_⟩
        simp [isHeaderLine, hend]
      · simp only [hend, if_false]
        cases hh : isHeaderChar l with
        | false =>
          simp only [Bool.false_eq_true, if_false]
          obtain ⟨n, cols, hscan, _⟩ :=
            scanFields_some atof uninit p.defaultValue (l :: tail) false
              ((l :: tail).length + 1) 0 0 p.columns (by omega) (Nat.zero_le _) (Nat.zero_le _)
          simp only [hscan]
          refine ⟨n, _, [l :: tail], rest, rfl, rfl, rfl, ?_⟩
          simp [isHeaderLine, hh]
        | true =>
          simp only [if_true]
          obtain ⟨n, cols, hscan, g1, _⟩ :=
            scanFields_some atof uninit p.defaultValue (l :: tail) true
              ((l :: tail).length + 1) 0 0 p.columns (by omega) (Nat.zero_le _) (Nat.zero_le _)
          simp only [hscan]
          have hpos : 0 < cols.length := by omega
          simp only [List.getElem?_eq_getElem hpos]
          obtain ⟨count, q, consumed, pending, h1, h2, h3, h4⟩ :=
            ih { p with input := some rest, raw := false, columns := cols, isXycePRN := cols[0].header == "Index" }
          refine ⟨count, q, (l :: tail) :: consumed, pending, h1, by simp [h2], h3, ?_⟩
          rw [h4]
          simp [isHeaderLine, hh, hend]

theorem nextRowCalls_raw {V : Type} (atof : List Char → V) (uninit : V) :
    ∀ (n : Nat) (p : OutputParser V) (lines : List (List Char)), p.input = some lines →
      ∃ q consumed pending, nextRowCalls atof uninit n p = some q ∧
        lines = consumed ++ pending ∧ q.input = some pending ∧
        q.raw = (p.raw && consumed.all fun l => !isHeaderLine l) := by
  intro n
  induction n with
  | zero =>
    intro p lines hin
    exact ⟨p, [], lines, rfl, rfl, hin, by simp⟩
  | succ n ih =>
    intro p lines hin
    obtain ⟨count, q1, consumed1, pending1, h1, h2, h3, h4⟩ := nextRowLoop_raw atof uninit lines p
    obtain ⟨q, consumed, pending, g1, g2, g3, g4⟩ := ih q1 pending1 h3
    refine ⟨q, consumed1 ++ consumed, pending, ?_, ?_, g3, ?_⟩
    · simp only [nextRowCalls, OutputParser.nextRow, hin, h1]
      exact g1
    · rw [h2, g2, List.append_assoc]
    · rw [g4, h4, List.all_append, Bool.and_assoc]

theorem parseColumnFile_getElem {V : Type} :
    ∀ (lines : List (List Char)) (columns : List (Column V)) (i : Nat) (c : Column V),
      columns[i]? = some c →
      ∃ c', (parseColumnFile lines columns)[i]? = some c' ∧
        (c' = c ∨ (c.header.isEmpty = true ∧ ∃ line, c' = { c with header := String.mk line })) := by
  intro lines
  induction lines with
  | nil =>
    intro columns i c h
    cases columns with
    | nil => simp at h
    | cons a b => exact ⟨c, by simpa [parseColumnFile] using h, Or.inl rfl⟩
  | cons line rest ih =>
    intro columns i c h
    cases columns with
    | nil => simp at h
    | cons a b =>
      cases i with
      | zero =>
        simp at h
        subst h
        by_cases he : a.header.isEmpty = true
        · exact ⟨{ a with header := String.mk line }, by simp [parseColumnFile, he],
            Or.inr ⟨he, line, rfl⟩⟩
        · exact ⟨a, by simp [parseColumnFile, he], Or.inl rfl⟩
      | succ i =>
        simp at h
        obtain ⟨c', h1, h2⟩ := ih b i c h
        exact ⟨c', by simpa [parseColumnFile] using h1, h2⟩

theorem nextRow_some {V : Type} (atof : List Char → V) (uninit : V) (p : OutputParser V) :
    ∃ count q, p.nextRow atof uninit = some (count, q) ∧
      (count = 0 ∨ count < q.columns.length) ∧
      p.columns.map (fun c => c.header) <+: q.columns.map (fun c => c.header) := by
  unfold OutputParser.nextRow
  cases hin : p.input with
  | none => exact ⟨0, p, rfl, Or.inl rfl, List.prefix_refl _⟩
  | some lines =>
    obtain ⟨count, q, hq, h1, _, _, _, _, h6, _⟩ := nextRowLoop_spec atof uninit lines p
    exact ⟨count, q, hq, h1, h6⟩

theorem parseFinish_columns {V : Type} (p : OutputParser V) (columnFile : Option String) :
    (p.parseFinish columnFile).columns = p.columns ∨
    (p.parseFinish columnFile).columns = parseColumnFile (ifstream columnFile) p.columns ∨
    (p.parseFinish columnFile).columns = (parseColumnFile (ifstream columnFile) p.columns).tail := by
  unfold OutputParser.parseFinish
  by_cases hempty : p.columns.isEmpty = true
  · simp [hempty]
  · by_cases hx : p.isXycePRN = true
    · right; right; simp [hempty, hx]
    · right; left; simp [hempty, hx]

theorem storeValues_getElem {V : Type} (rows : Int) :
    ∀ (n c : Nat) (columns cols : List (Column V)), storeValues rows n c columns = some cols →
      ∀ i, cols[i]? = if c ≤ i ∧ i < c + n then (columns[i]?).map (storeColumn rows)
        else columns[i]? := by
  intro n
  induction n with
  | zero =>
    intro c columns cols h i
    simp [storeValues] at h
    subst h
    have : ¬ (c ≤ i ∧ i < c + 0) := by omega
    rw [if_neg this]
  | succ n ih =>
    intro c columns cols h i
    unfold storeValues at h
    cases hc : columns[c]? with
    | none => simp [hc] at h
    | some column =>
      simp only [hc] at h
      have hi := ih (c + 1) _ cols h i
      rw [hi]
      by_cases hic : c = i
      · subst hic
        have h1 : ¬ (c + 1 ≤ c ∧ c < c + 1 + n) := by omega
        have h2 : c ≤ c ∧ c < c + (n + 1) := by omega
        have hlt : c < columns.length := (List.getElem?_eq_some.mp hc).1
        simp only [h1, h2, if_false, if_true, hc, Option.map_some']
        simp [hlt, storeColumn]
      · have h3 : (c + 1 ≤ i ∧ i < c + 1 + n) ↔ (c ≤ i ∧ i < c + (n + 1)) := by omega
        simp only [h3, List.getElem?_set_ne hic]

theorem fillValues_getElem {V : Type} (d : V) :
    ∀ (n c : Nat) (columns cols : List (Column V)), fillValues d n c columns = some cols →
      ∀ i, cols[i]? = if c ≤ i ∧ i < c + n then (columns[i]?).map (fillColumn d)
        else columns[i]? := by
  intro n
  induction n with
  | zero =>
    intro c columns cols h i
    simp [fillValues] at h
    subst h
    have : ¬ (c ≤ i ∧ i < c + 0) := by omega
    rw [if_neg this]
  | succ n ih =>
    intro c columns cols h i
    unfold fillValues at h
    cases hc : columns[c]? with
    | none => simp [hc] at h
    | some column =>
      simp only [hc] at h
      have hi := ih (c + 1) _ cols h i
      rw [hi]
      by_cases hic : c = i
      · subst hic
        have h1 : ¬ (c + 1 ≤ c ∧ c < c + 1 + n) := by omega
        have h2 : c ≤ c ∧ c < c + (n + 1) := by omega
        have hlt : c < columns.length := (List.getElem?_eq_some.mp hc).1
        simp only [h1, h2, if_false, if_true, hc, Option.map_some']
        simp [hlt, fillColumn]
      · have h3 : (c + 1 ≤ i ∧ i < c + 1 + n) ↔ (c ≤ i ∧ i < c + (n + 1)) := by omega
        simp only [h3, List.getElem?_set_ne hic]

theorem storeColumn_bound {V : Type} (rows : Int) (c : Column V) (hrows : 1 ≤ rows)
    (h : ColumnBound (rows - 1) c) : ColumnBound rows (storeColumn rows c) := by
  unfold ColumnBound at h ⊢
  unfold storeColumn
  by_cases he : c.values.isEmpty = true
  · have hnil : c.values = [] := List.isEmpty_iff.mp he
    rw [if_pos he]
    simp only [hnil, List.nil_append, List.length_singleton]
    constructor
    · omega
    · push_cast; omega
  · rw [if_neg he]
    simp only [List.length_append, List.length_singleton]
    constructor
    · exact h.1
    · push_cast; omega

theorem fillColumn_bound {V : Type} (rows : Int) (d : V) (c : Column V)
    (h : ColumnBound (rows - 1) c) : ColumnBound rows (fillColumn d c) := by
  unfold ColumnBound at h ⊢
  simp only [fillColumn, List.length_append, List.length_singleton]
  constructor
  · exact h.1
  · push_cast; omega

theorem storeRow_bound {V : Type} (p q : OutputParser V) (count : Nat) (hrows : 1 ≤ p.rows)
    (h : ∀ c ∈ p.columns, ColumnBound (p.rows - 1) c) (hq : storeRow p count = some q) :
    q.rows = p.rows ∧ ∀ c ∈ q.columns, ColumnBound p.rows c := by
  unfold storeRow at hq
  cases h1 : storeValues p.rows count 0 p.columns with
  | none => simp [h1] at hq
  | some cols1 =>
    simp only [h1] at hq
    cases h2 : fillValues p.defaultValue (cols1.length - count) count cols1 with
    | none => simp [h2] at hq
    | some cols2 =>
      simp only [h2, Option.map_some', Option.some.injEq] at hq
      subst hq
      refine ⟨rfl, ?_⟩
      intro x hx
      obtain ⟨i, hi⟩ := List.getElem?_of_mem hx
      have e2 := fillValues_getElem p.defaultValue _ _ _ _ h2 i
      have e1 := storeValues_getElem p.rows _ _ _ _ h1 i
      simp only at hi
      rw [hi] at e2
      have hweak : ∀ y : Column V, ColumnBound (p.rows - 1) y → ColumnBound p.rows y := by
        intro y hy
        exact ⟨hy.1, by have := hy.2; omega⟩
      by_cases hc2 : count ≤ i ∧ i < count + (cols1.length - count)
      · have hc1 : ¬ (0 ≤ i ∧ i < 0 + count) := by omega
        simp only [hc2, and_self, if_true] at e2
        simp only [hc1, if_false] at e1
        rw [e1] at e2
        cases hy : p.columns[i]? with
        | none => simp [hy] at e2
        | some y =>
          simp only [hy, Option.map_some', Option.some.injEq] at e2
          rw [e2]
          exact fillColumn_bound p.rows _ y (h y (List.getElem?_mem hy))
      · simp only [hc2, if_false] at e2
        rw [← e2] at e1
        by_cases hc1 : 0 ≤ i ∧ i < 0 + count
        · simp only [hc1, and_self, if_true] at e1
          cases hy : p.columns[i]? with
          | none => simp [hy] at e1
          | some y =>
            simp only [hy, Option.map_some', Option.some.injEq] at e1
            rw [e1]
            exact storeColumn_bound p.rows y hrows (h y (List.getElem?_mem hy))
        · simp only [hc1, if_false] at e1
          exact hweak x (h x (List.getElem?_mem e1.symm))

theorem nextRowLoop_forall {V : Type} (Q : Column V → Prop)
    (hnew : ∀ h u, Q (Column.construct h u))
    (hupd : ∀ (c : Column V) v w, Q c → Q { c with value := v, textWidth := w })
    (atof : List Char → V) (uninit : V) :
    ∀ (lines : List (List Char)) (p : OutputParser V) (count : Nat) (q : OutputParser V),
      (∀ x ∈ p.columns, Q x) → nextRowLoop atof uninit lines p = some (count, q) →
      (∀ x ∈ q.columns, Q x) ∧ ((q.rows = p.rows ∧ count = 0) ∨ q.rows = p.rows + 1) := by
  intro lines
  induction lines with
  | nil =>
    intro p count q hQ h
    simp [nextRowLoop] at h
    obtain ⟨h1, h2⟩ := h
    subst h1 h2
    exact ⟨hQ, Or.inl ⟨rfl, rfl⟩⟩
  | cons line rest ih =>
    intro p count q hQ h
    cases line with
    | nil =>
      simp only [nextRowLoop] at h
      exact ih { p with input := some rest } count q hQ h
    | cons l tail =>
      unfold nextRowLoop at h
      by_cases hend : substr (l :: tail) 0 6 = some "End of".data
      · simp only [hend, if_true, Option.some.injEq, Prod.mk.injEq] at h
        obtain ⟨h1, h2⟩ := h
        subst h1 h2
        exact ⟨hQ, Or.inl ⟨rfl, rfl⟩⟩
      · simp only [hend, if_false] at h
        cases hh : isHeaderChar l with
        | false =>
          simp only [hh, Bool.false_eq_true, if_false] at h
          split at h
          · exact absurd h (by simp)
          · rename_i n cols hscan
            simp only [Option.some.injEq, Prod.mk.injEq] at h
            obtain ⟨h1, h2⟩ := h
            subst h1 h2
            exact ⟨scanFields_forall Q hnew hupd atof uninit p.defaultValue (l :: tail) false _ 0 0
              p.columns n cols (Nat.zero_le _) (Nat.zero_le _) hQ hscan, Or.inr rfl⟩
        | true =>
          simp only [hh, if_true] at h
          split at h
          · exact absurd h (by simp)
          · rename_i n cols hscan
            have hcols := scanFields_forall Q hnew hupd atof uninit p.defaultValue (l :: tail)
              true _ 0 0 p.columns n cols (Nat.zero_le _) (Nat.zero_le _) hQ hscan
            split at h
            · exact absurd h (by simp)
            · rename_i first h0
              exact ih { p with input := some rest, raw := false, columns := cols, isXycePRN := first.header == "Index" } count q hcols h

theorem rowLoop_step_inv {V : Type} (atof : List Char → V) (uninit : V)
    (s s1 : OutputParser V) (count : Nat) (hinv : ColumnInv s)
    (h1 : s.nextRow atof uninit = some (count, s1)) :
    (count = 0 → ColumnInv s1) ∧
    (count ≠ 0 → ∀ s2, storeRow s1 count = some s2 → ColumnInv s2) := by
  have hstep : (∀ x ∈ s1.columns, ColumnBound s.rows x) ∧
      ((s1.rows = s.rows ∧ count = 0) ∨ s1.rows = s.rows + 1) := by
    unfold OutputParser.nextRow at h1
    cases hin : s.input with
    | none =>
      simp only [hin, Option.some.injEq, Prod.mk.injEq] at h1
      obtain ⟨e1, e2⟩ := h1
      subst e1 e2
      exact ⟨hinv.2, Or.inl ⟨rfl, rfl⟩⟩
    | some lines =>
      simp only [hin] at h1
      exact nextRowLoop_forall (ColumnBound s.rows)
        (fun h u => ⟨le_refl _, by simpa [Column.construct] using hinv.1⟩)
        (fun c v w hc => hc) atof uninit lines s count s1 hinv.2 h1
  obtain ⟨hcols, hrows⟩ := hstep
  constructor
  · intro _
    have hle : s.rows ≤ s1.rows := by rcases hrows with h | h <;> omega
    exact ⟨by have := hinv.1; omega, fun x hx => ⟨(hcols x hx).1, by have := (hcols x hx).2; omega⟩⟩
  · intro hc s2 h2
    have hr : s1.rows = s.rows + 1 := by
      rcases hrows with h | h
      · exact absurd h.2 hc
      · exact h
    have hb := storeRow_bound s1 s2 count (by have := hinv.1; omega)
      (fun x hx => by rw [hr]; simpa using hcols x hx) h2
    exact ⟨by rw [hb.1, hr]; have := hinv.1; omega, fun x hx => by rw [hb.1]; exact hb.2 x hx⟩

theorem parseLoop_inv {V : Type} (atof : List Char → V) (uninit : V) :
    ∀ (budget : Nat) (p r : OutputParser V), ColumnInv p →
      parseLoop atof uninit budget p = some r → ColumnInv r := by
  intro budget
  induction budget with
  | zero => intro p r _ h; simp [parseLoop] at h
  | succ budget ih =>
    intro p r hinv h
    unfold parseLoop at h
    cases h1 : p.nextRow atof uninit with
    | none => simp [h1] at h
    | some res =>
      obtain ⟨count, p1⟩ := res
      simp only [h1] at h
      obtain ⟨g1, g2⟩ := rowLoop_step_inv atof uninit p p1 count hinv h1
      by_cases hc : count = 0
      · simp only [hc, if_true, Option.some.injEq] at h
        subst h
        exact g1 hc
      · simp only [hc, if_false] at h
        cases h2 : storeRow p1 count with
        | none => simp [h2] at h
        | some p2 =>
          simp only [h2] at h
          exact ih p2 r (g2 hc p2 h2) h

theorem parseColumnFile_bound {V : Type} (rows : Int) (lines : List (List Char))
    (columns : List (Column V)) (h : ∀ c ∈ columns, ColumnBound rows c) :
    ∀ c ∈ parseColumnFile lines columns, ColumnBound rows c := by
  intro x hx
  obtain ⟨i, hi⟩ := List.getElem?_of_mem hx
  have hlt : i < columns.length := by
    have := (List.getElem?_eq_some.mp hi).1
    rwa [parseColumnFile_length] at this
  obtain ⟨c', h1, h2⟩ := parseColumnFile_getElem lines columns i columns[i]
    (List.getElem?_eq_getElem hlt)
  rw [hi] at h1
  cases h1
  have hb := h columns[i] (List.getElem?_mem (List.getElem?_eq_getElem hlt))
  rcases h2 with h2 | ⟨_, line, h2⟩
  · rw [h2]; exact hb
  · rw [h2]; exact hb

theorem parseFinish_inv {V : Type} (p : OutputParser V) (columnFile : Option String)
    (hinv : ColumnInv p) : ColumnInv (p.parseFinish columnFile) := by
  have hrows : (p.parseFinish columnFile).rows = p.rows := by
    unfold OutputParser.parseFinish
    split <;> rfl
  refine ⟨by rw [hrows]; exact hinv.1, ?_⟩
  rw [hrows]
  have hcf := parseColumnFile_bound p.rows (ifstream columnFile) p.columns hinv.2
  rcases parseFinish_columns p columnFile with h | h | h
  · rw [h]; exact hinv.2
  · rw [h]; exact hcf
  · rw [h]
    intro c hc
    exact hcf c (List.mem_of_mem_tail hc)

theorem computeStatsLoop_range {F : Type} [LinearOrder F] :
    ∀ (values : List (Sample F)) (s : ColumnStats F),
      (computeStatsLoop values s).range = s.range := by
  intro values
  induction values with
  | nil => intro s; rfl
  | cons f rest ih =>
    intro s
    unfold computeStatsLoop
    split
    · exact ih s
    · rw [ih]

/-- The loop of `computeStats` from a state whose bounds are finite: the bounds
stay finite, move outwards only to samples of the list, and enclose every finite
sample of the list. -/
theorem computeStatsLoop_finite {F : Type} [LinearOrder F] :
    ∀ (values : List (Sample F)) (s : ColumnStats F) (lo hi : F),
      s.minimum = .finite lo → s.maximum = .finite hi →
      ∃ lo' hi', (computeStatsLoop values s).minimum = .finite lo' ∧
        (computeStatsLoop values s).maximum = .finite hi' ∧
        lo' ≤ lo ∧ hi ≤ hi' ∧
        (lo' = lo ∨ .finite lo' ∈ values) ∧ (hi' = hi ∨ .finite hi' ∈ values) ∧
        ∀ x, .finite x ∈ values → lo' ≤ x ∧ x ≤ hi' := by
  intro values
  induction values with
  | nil =>
    intro s lo hi h1 h2
    exact ⟨lo, hi, h1, h2, le_refl _, le_refl _, Or.inl rfl, Or.inl rfl, by simp⟩
  | cons f rest ih =>
    intro s lo hi h1 h2
    cases f with
    | finite x =>
      have hstep : computeStatsLoop (Sample.finite x :: rest) s = computeStatsLoop rest
          { s with minimum := .finite (if x < lo then x else lo),
                   maximum := .finite (if hi < x then x else hi) } := by
        simp only [computeStatsLoop, Sample.isinf, Sample.isnan, Bool.or_self, Bool.false_eq_true,
          if_false, h1, h2, stdMin, stdMax, Sample.lt, decide_eq_true_eq]
        congr 2
        · split <;> rfl
        · split <;> rfl
      obtain ⟨lo', hi', g1, g2, g3, g4, g5, g6, g7⟩ := ih
        { s with minimum := .finite (if x < lo then x else lo),
                 maximum := .finite (if hi < x then x else hi) }
        (if x < lo then x else lo) (if hi < x then x else hi) rfl rfl
      rw [hstep]
      have hlo : (if x < lo then x else lo) ≤ lo ∧ (if x < lo then x else lo) ≤ x := by
        split
        · rename_i h; exact ⟨le_of_lt h, le_refl _⟩
        · rename_i h; exact ⟨le_refl _, not_lt.mp h⟩
      have hhi : hi ≤ (if hi < x then x else hi) ∧ x ≤ (if hi < x then x else hi) := by
        split
        · rename_i h; exact ⟨le_of_lt h, le_refl _⟩
        · rename_i h; exact ⟨le_refl _, not_lt.mp h⟩
      refine ⟨lo', hi', g1, g2, le_trans g3 hlo.1, le_trans hhi.1 g4, ?_, ?_, ?_⟩
      · rcases g5 with g5 | g5
        · by_cases hx : x < lo
          · right; rw [g5, if_pos hx]; exact List.mem_cons_self _ _
          · left; rw [g5, if_neg hx]
        · right; exact List.mem_cons_of_mem _ g5
      · rcases g6 with g6 | g6
        · by_cases hx : hi < x
          · right; rw [g6, if_pos hx]; exact List.mem_cons_self _ _
          · left; rw [g6, if_neg hx]
        · right; exact List.mem_cons_of_mem _ g6
      · intro y hy
        rcases List.mem_cons.mp hy with hy | hy
        · cases hy
          exact ⟨le_trans g3 hlo.2, le_trans hhi.2 g4⟩
        · exact g7 y hy
    | posInf =>
      obtain ⟨lo', hi', g1, g2, g3, g4, g5, g6, g7⟩ := ih s lo hi h1 h2
      refine ⟨lo', hi', by simpa [computeStatsLoop, Sample.isinf] using g1,
        by simpa [computeStatsLoop, Sample.isinf] using g2, g3, g4, ?_, ?_, ?_⟩
      · exact g5.imp id (List.mem_cons_of_mem _)
      · exact g6.imp id (List.mem_cons_of_mem _)
      · intro y hy
        rcases List.mem_cons.mp hy with hy | hy
        · cases hy
        · exact g7 y hy
    | negInf =>
      obtain ⟨lo', hi', g1, g2, g3, g4, g5, g6, g7⟩ := ih s lo hi h1 h2
      refine ⟨lo', hi', by simpa [computeStatsLoop, Sample.isinf] using g1,
        by simpa [computeStatsLoop, Sample.isinf] using g2, g3, g4, ?_, ?_, ?_⟩
      · exact g5.imp id (List.mem_cons_of_mem _)
      · exact g6.imp id (List.mem_cons_of_mem _)
      · intro y hy
        rcases List.mem_cons.mp hy with hy | hy
        · cases hy
        · exact g7 y hy
    | nan =>
      obtain ⟨lo', hi', g1, g2, g3, g4, g5, g6, g7⟩ := ih s lo hi h1 h2
      refine ⟨lo', hi', by simpa [computeStatsLoop, Sample.isinf, Sample.isnan] using g1,
        by simpa [computeStatsLoop, Sample.isinf, Sample.isnan] using g2, g3, g4, ?_, ?_, ?_⟩
      · exact g5.imp id (List.mem_cons_of_mem _)
      · exact g6.imp id (List.mem_cons_of_mem _)
      · intro y hy
        rcases List.mem_cons.mp hy with hy | hy
        · cases hy
        · exact g7 y hy

theorem computeStatsLoop_fresh {F : Type} [LinearOrder F] :
    ∀ (values : List (Sample F)) (s : ColumnStats F),
      s.minimum = .posInf → s.maximum = .negInf →
      ((∀ x, Sample.finite x ∉ values) ∧ computeStatsLoop values s = s) ∨
      (∃ lo hi, .finite lo ∈ values ∧ .finite hi ∈ values ∧
        (∀ x, .finite x ∈ values → lo ≤ x ∧ x ≤ hi) ∧
        (computeStatsLoop values s).minimum = .finite lo ∧
        (computeStatsLoop values s).maximum = .finite hi) := by
  intro values
  induction values with
  | nil => intro s _ _; left; exact ⟨by simp, rfl⟩
  | cons f rest ih =>
    intro s h1 h2
    have hskip : (f.isinf || f.isnan) = true → (∀ x, f ≠ Sample.finite x) →
        ((∀ x, Sample.finite x ∉ f :: rest) ∧ computeStatsLoop (f :: rest) s = s) ∨
        (∃ lo hi, .finite lo ∈ f :: rest ∧ .finite hi ∈ f :: rest ∧
          (∀ x, .finite x ∈ f :: rest → lo ≤ x ∧ x ≤ hi) ∧
          (computeStatsLoop (f :: rest) s).minimum = .finite lo ∧
          (computeStatsLoop (f :: rest) s).maximum = .finite hi) := by
      intro hf hne
      have hloop : computeStatsLoop (f :: rest) s = computeStatsLoop rest s := by
        simp only [computeStatsLoop, hf, if_true]
      rw [hloop]
      rcases ih s h1 h2 with ⟨g1, g2⟩ | ⟨lo, hi, g1, g2, g3, g4, g5⟩
      · left
        refine ⟨?_, g2⟩
        intro x hx
        rcases List.mem_cons.mp hx with hx | hx
        · exact hne x hx.symm
        · exact g1 x hx
      · right
        refine ⟨lo, hi, List.mem_cons_of_mem _ g1, List.mem_cons_of_mem _ g2, ?_, g4, g5⟩
        intro x hx
        rcases List.mem_cons.mp hx with hx | hx
        · exact absurd hx.symm (hne x)
        · exact g3 x hx
    cases f with
    | finite x =>
      right
      have hstep : computeStatsLoop (Sample.finite x :: rest) s = computeStatsLoop rest
          { s with minimum := .finite x, maximum := .finite x } := by
        simp [computeStatsLoop, Sample.isinf, Sample.isnan, h1, h2, stdMin, stdMax, Sample.lt]
      obtain ⟨lo', hi', g1, g2, g3, g4, g5, g6, g7⟩ := computeStatsLoop_finite rest
        { s with minimum := .finite x, maximum := .finite x } x x rfl rfl
      rw [hstep]
      refine ⟨lo', hi', ?_, ?_, ?_, g1, g2⟩
      · rcases g5 with g5 | g5
        · rw [g5]; exact List.mem_cons_self _ _
        · exact List.mem_cons_of_mem _ g5
      · rcases g6 with g6 | g6
        · rw [g6]; exact List.mem_cons_self _ _
        · exact List.mem_cons_of_mem _ g6
      · intro y hy
        rcases List.mem_cons.mp hy with hy | hy
        · cases hy
          exact ⟨g3, g4⟩
        · exact g7 y hy
    | posInf => exact hskip rfl (fun x hx => by cases hx)
    | negInf => exact hskip rfl (fun x hx => by cases hx)
    | nan => exact hskip rfl (fun x hx => by cases hx)

theorem computeStatsLoop_stable {F : Type} [LinearOrder F] :
    ∀ (values : List (Sample F)) (s : ColumnStats F) (lo hi : F),
      s.minimum = .finite lo → s.maximum = .finite hi →
      (∀ x, .finite x ∈ values → lo ≤ x ∧ x ≤ hi) →
      computeStatsLoop values s = s := by
  intro values
  induction values with
  | nil => intro s lo hi _ _ _; rfl
  | cons f rest ih =>
    intro s lo hi h1 h2 hb
    have hrest : ∀ x, Sample.finite x ∈ rest → lo ≤ x ∧ x ≤ hi :=
      fun x hx => hb x (List.mem_cons_of_mem _ hx)
    cases f with
    | finite x =>
      obtain ⟨hx1, hx2⟩ := hb x (List.mem_cons_self _ _)
      have hmin : stdMin s.minimum (Sample.finite x) = s.minimum := by
        simp [stdMin, h1, Sample.lt, not_lt.mpr hx1]
      have hmax : stdMax s.maximum (Sample.finite x) = s.maximum := by
        simp [stdMax, h2, Sample.lt, not_lt.mpr hx2]
      simp only [computeStatsLoop, Sample.isinf, Sample.isnan, Bool.or_self, Bool.false_eq_true,
        if_false, hmin, hmax]
      exact ih s lo hi h1 h2 hrest
    | posInf => simpa [computeStatsLoop, Sample.isinf] using ih s lo hi h1 h2 hrest
    | negInf => simpa [computeStatsLoop, Sample.isinf] using ih s lo hi h1 h2 hrest
    | nan => simpa [computeStatsLoop, Sample.isinf, Sample.isnan] using ih s lo hi h1 h2 hrest

theorem computeStatsBody_fresh {F : Type} [LinearOrder F] [Zero F] [Sub F]
    (values : List (Sample F)) :
    ((∀ x, Sample.finite x ∉ values) ∧
      (ColumnStats.construct : ColumnStats F).computeStatsBody values =
        { minimum := .finite 0, maximum := .finite 0, range := .finite 0 }) ∨
    (∃ lo hi, .finite lo ∈ values ∧ .finite hi ∈ values ∧
      (∀ x, .finite x ∈ values → lo ≤ x ∧ x ≤ hi) ∧ lo ≤ hi ∧
      (ColumnStats.construct : ColumnStats F).computeStatsBody values =
        { minimum := .finite lo, maximum := .finite hi, range := .finite (hi - lo) }) := by
  rcases computeStatsLoop_fresh values (ColumnStats.construct : ColumnStats F) rfl rfl with
    ⟨g1, g2⟩ | ⟨lo, hi, g1, g2, g3, g4, g5⟩
  · left
    refine ⟨g1, ?_⟩
    unfold ColumnStats.computeStatsBody
    simp only [g2]
    rfl
  · right
    refine ⟨lo, hi, g1, g2, g3, le_trans (g3 lo g1).2 (le_refl _), ?_⟩
    have hr := computeStatsLoop_range values (ColumnStats.construct : ColumnStats F)
    cases hs : computeStatsLoop values (ColumnStats.construct : ColumnStats F) with
    | mk mn mx rg =>
      rw [hs] at g4 g5
      simp only at g4 g5
      subst g4 g5
      simp [ColumnStats.computeStatsBody, hs, Sample.isinf, Sample.sub]

/-- The statements of the body of `computeStats`, run a second time on the same
`values` after a first run on a freshly constructed column, change nothing, for a
number type in which `0 - 0` is `0`. -/
theorem computeStatsBody_idempotent {F : Type} [LinearOrder F] [Zero F] [Sub F]
    (hzero : (0 : F) - 0 = 0) (values : List (Sample F)) :
    ((ColumnStats.construct : ColumnStats F).computeStatsBody values).computeStatsBody values =
      (ColumnStats.construct : ColumnStats F).computeStatsBody values := by
  rcases computeStatsBody_fresh values with ⟨h1, h2⟩ | ⟨lo, hi, h1, h2, h3, h4, h5⟩
  · rw [h2]
    have hstable := computeStatsLoop_stable values
      ({ minimum := .finite 0, maximum := .finite 0, range := .finite 0 } : ColumnStats F) 0 0
      rfl rfl (fun x hx => absurd hx (h1 x))
    unfold ColumnStats.computeStatsBody
    simp only [hstable, Sample.isinf, Sample.sub, hzero]
    rfl
  · rw [h5]
    have hstable := computeStatsLoop_stable values
      ({ minimum := .finite lo, maximum := .finite hi, range := .finite (hi - lo) } :
        ColumnStats F) lo hi rfl rfl h3
    unfold ColumnStats.computeStatsBody
    simp only [hstable, Sample.isinf, Sample.sub]
    rfl

/-! ## The claims -/

/-- C1 (the code at the failing inputs): on the one-line file "5" `nextRow`
consumes the data line, counts it in `rows` and creates one column, and it
returns 0; on the line "1<tab>2" it creates two columns and returns 1.  The
returned value is one less than the number of fields. -/
theorem nextRow_returns_field_count_minus_one :
    ((fresh.open (some "5\n")).nextRow atof 0).map
        (fun x => (x.1, x.2.rows, x.2.columns.length)) = some (0, 1, 1) ∧
    ((fresh.open (some "1\t2\n")).nextRow atof 0).map
        (fun x => (x.1, x.2.rows, x.2.columns.length)) = some (1, 1, 2) := by
  decide

/-- C2 (the code at the failing input): after `parse` of scenario S1 with default
0 the column "v" holds the default in every row, `v.get (2)` is 0 although the
field "4.0" parses to 4, which is left in `value` only. -/
theorem parse_S1_last_field_not_stored :
    (fresh.parse atof 0 (some scenarioS1) none 0).map
        (fun q => q.columns.map fun c => (c.header, c.values, c.value, c.get 2 0))
      = some [("t", [0, 1, 2], 2, some 2), ("v", [0, 0, 0], 4, some 0)] ∧
    atof "4.0".data = 4 := by
  decide

/-- C3 (the code at the failing input): after `parse` of the one-line file "5",
`rows` is 1 and the only column has `startRow` 0 and no stored value, so that
`len (values)` is 0 and `rows - startRow` is 1. -/
theorem parse_single_field_not_rectangular :
    (fresh.parse atof 0 (some "5\n") none 0).map
        (fun q => (q.rows, q.columns.map fun c => (c.values.length, c.startRow)))
      = some (1, [(0, 0)]) := by
  decide

/-- C4 (the code at the failing input): the file with the two data lines "1" and
"2" leaves `rows` at 1 after `parse`, and the second line is still unread. -/
theorem parse_stops_at_single_field_row :
    (fresh.parse atof 0 (some "1\n2\n") none 0).map (fun q => (q.rows, q.input))
      = some (1, some ["2".data]) := by
  decide

/-- C5 (the code at the failing input): after `parse` of the file "a" with default
value -1, `get ("a", 0)` is out of range for the column "a" and returns 0, while
`get ("b", 0)` for the missing column "b" returns the default -1. -/
theorem get_out_of_range_returns_zero :
    (fresh.parse atof 0 (some "a\n") none (-1)).map
        (fun q => (q.defaultValue, q.columns.map (fun c => (c.header, c.values, c.startRow))))
      = some (-1, [("a", [], 0)]) ∧
    (fresh.parse atof 0 (some "a\n") none (-1)).bind (fun q => q.get "a" 0) = some 0 ∧
    (fresh.parse atof 0 (some "a\n") none (-1)).bind (fun q => q.get "b" 0) = some (-1) := by
  decide

/-- C6: `Column::get` always returns, without an access outside `values`, and its
result is the reference definition: the cached `value` for a negative row,
`values[row - startRow]` when that index is in bounds, and the default otherwise. -/
theorem Column.get_eq_getReference {V : Type} (column : Column V) (row : Int) (dflt : V) :
    column.get row dflt = some (column.getReference row dflt) := by
  unfold Column.get Column.getReference
  by_cases h1 : row < 0
  · simp [h1]
  · simp only [h1, if_false]
    by_cases h2 : row - column.startRow < 0 ∨ row - column.startRow ≥ (column.values.length : Int)
    · have h3 : ¬ (0 ≤ row - column.startRow ∧ row - column.startRow < column.values.length) := by omega
      rw [if_pos h2, dif_neg h3]
    · have h3 : 0 ≤ row - column.startRow ∧ row - column.startRow < column.values.length := by omega
      have h4 : (row - column.startRow).toNat < column.values.length := by omega
      rw [if_neg h2, dif_pos h3]
      exact List.getElem?_eq_getElem h4

/-- C7: time-column preference.  The rank of the header "t" is 1, of "TIME" 2, of
"$t" 3, and of every other header 0.  `parse` always returns.  When the row loop
ends with no column, `parse` changes nothing more.  Otherwise, with `cols` the
columns after the column file has been read and before the "Index" column is
removed: either no header of `cols` has a positive rank and then `time` is the
first column and `timeFound` is false, or `time` is a column `c` of positive rank
such that no column has a higher rank and every earlier column has a lower rank,
and `timeFound` is true. -/
theorem parse_time_preference {V : Type} (atof : List Char → V) (uninit : V)
    (p : OutputParser V) (file columnFile : Option String) (d : V) :
    (potentialMatch "t" = 1 ∧ potentialMatch "TIME" = 2 ∧ potentialMatch "$t" = 3 ∧
      ∀ h, h ≠ "t" → h ≠ "TIME" → h ≠ "$t" → potentialMatch h = 0) ∧
    ∃ r q, p.parseRows atof uninit file d = some r ∧
      p.parse atof uninit file columnFile d = some q ∧
      ((r.columns = [] ∧ q = r) ∨
       (r.columns ≠ [] ∧ ∃ cols, cols = parseColumnFile (ifstream columnFile) r.columns ∧
        (((∀ x ∈ cols, potentialMatch x.header = 0) ∧ q.time = some 0 ∧ q.timeFound = false) ∨
         (∃ i c, cols[i]? = some c ∧ 0 < potentialMatch c.header ∧
            q.time = some i ∧ q.timeFound = true ∧
            (∀ x ∈ cols, potentialMatch x.header ≤ potentialMatch c.header) ∧
            (∀ j x, j < i → cols[j]? = some x →
              potentialMatch x.header < potentialMatch c.header))))) := by
  refine ⟨⟨by decide, by decide, by decide, fun h h1 h2 h3 => by simp [potentialMatch, h1, h2, h3]⟩,
    ?_⟩
  obtain ⟨r, hr, _⟩ := parseRows_some atof uninit p file d
  obtain ⟨htf, _, _, _⟩ := parseRows_initial atof uninit p file d r hr
  refine ⟨r, r.parseFinish columnFile, hr, by simp [OutputParser.parse, hr], ?_⟩
  by_cases hempty : r.columns = []
  · left
    exact ⟨hempty, by simp [OutputParser.parseFinish, hempty]⟩
  · right
    refine ⟨hempty, _, rfl, ?_⟩
    have hne : r.columns.isEmpty = false := by
      cases hc : r.columns with
      | nil => exact absurd hc hempty
      | cons a b => rfl
    rcases determineTime_spec (parseColumnFile (ifstream columnFile) r.columns) 0 0 (some 0) false
      with ⟨h1, h2⟩ | ⟨i, c, h1, h2, h3, h4, h5⟩
    · left
      refine ⟨fun x hx => Nat.le_zero.mp (h1 x hx), ?_, ?_⟩
      · simp [OutputParser.parseFinish, hne, htf, h2]
      · simp [OutputParser.parseFinish, hne, htf, h2]
    · right
      refine ⟨i, c, h1, h2, ?_, ?_, h4, h5⟩
      · simp [OutputParser.parseFinish, hne, htf, h3]
      · simp [OutputParser.parseFinish, hne, htf, h3]

/-- Witness for C7: the ranks of the three names, and `parse` on header rows that
carry them.  With "t", "TIME", "$t" in this order `time` is the third column;
with "TIME", "t", "TIME" it is the first, the earlier of the two columns of the
highest rank; with "x", "t", "TIME" it is the third; with "x", "$t", "TIME", "$t"
it is the second; with "a", "b" it is the first column and `timeFound` is false;
and a column file that names the second column of a file without header row
"TIME" makes that column the time column. -/
theorem parse_time_preference_witness :
    (potentialMatch "t" = 1 ∧ potentialMatch "TIME" = 2 ∧ potentialMatch "$t" = 3 ∧
      ∀ h, h ≠ "t" → h ≠ "TIME" → h ≠ "$t" → potentialMatch h = 0) ∧
    (fresh.parse atof 0 (some "t\tTIME\t$t\n") none 0).map (fun q => (q.time, q.timeFound))
      = some (some 2, true) ∧
    (fresh.parse atof 0 (some "TIME\tt\tTIME\n") none 0).map (fun q => (q.time, q.timeFound))
      = some (some 0, true) ∧
    (fresh.parse atof 0 (some "x\tt\tTIME\n") none 0).map (fun q => (q.time, q.timeFound))
      = some (some 2, true) ∧
    (fresh.parse atof 0 (some "x\t$t\tTIME\t$t\n") none 0).map (fun q => (q.time, q.timeFound))
      = some (some 1, true) ∧
    (fresh.parse atof 0 (some "a\tb\n") none 0).map (fun q => (q.time, q.timeFound))
      = some (some 0, false) ∧
    (fresh.parse atof 0 (some "1\t2\t3\n") (some "x\nTIME\n") 0).map
        (fun q => (q.time, q.timeFound, q.columns.map fun c => c.header))
      = some (some 1, true, ["x", "TIME", ""]) :=
  ⟨(parse_time_preference atof 0 fresh (some "t\tTIME\t$t\n") none 0).1,
    by decide, by decide, by decide, by decide, by decide, by decide⟩

/-- C8 (counterexample): on the Xyce file with the columns "Index" and "V" and
one data row, `parse` ends with `isXycePRN` true and `time` is allocation number
0, the "Index" column, while the final vector holds the column "V" only. -/
theorem parse_time_is_removed_index_column :
    (fresh.parseRows atof 0 (some "Index\tV\n0\t1\n") 0).map
        (fun r => r.columns.map fun c => c.header) = some ["Index", "V"] ∧
    (fresh.parse atof 0 (some "Index\tV\n0\t1\n") none 0).map
        (fun q => (q.isXycePRN, q.time, q.columns.map fun c => c.header))
      = some (true, some 0, ["V"]) := by
  decide

/-- C8 (amended): when `parse` ends with `isXycePRN` true and some column header,
after the column file has been read, is "t", "TIME" or "$t", the time pointer is
the allocation number `i + 1` of a column that is still in the final vector, at
position `i`. -/
theorem parse_time_kept_when_ranked {V : Type} (atof : List Char → V) (uninit : V)
    (p : OutputParser V) (file columnFile : Option String) (d : V) (r q : OutputParser V)
    (hr : p.parseRows atof uninit file d = some r)
    (hq : p.parse atof uninit file columnFile d = some q)
    (hx : q.isXycePRN = true)
    (hrank : ∃ c ∈ parseColumnFile (ifstream columnFile) r.columns, 0 < potentialMatch c.header) :
    ∃ i, q.time = some (i + 1) ∧ i < q.columns.length ∧
      q.columns[i]? = (parseColumnFile (ifstream columnFile) r.columns)[i + 1]? := by
  obtain ⟨htf, _, _, hinv⟩ := parseRows_initial atof uninit p file d r hr
  have hq2 : q = r.parseFinish columnFile := by
    simp [OutputParser.parse, hr] at hq
    exact hq.symm
  have hne : r.columns.isEmpty = false := by
    cases hc : r.columns with
    | nil =>
      obtain ⟨c, hc1, _⟩ := hrank
      rw [hc] at hc1
      simp [parseColumnFile] at hc1
    | cons a b => rfl
  have hrx : r.isXycePRN = true := by
    rw [hq2] at hx
    simpa [OutputParser.parseFinish, hne] using hx
  obtain ⟨first, hf1, hf2⟩ := hinv hrx
  obtain ⟨y, hy1, hy2⟩ := parseColumnFile_head (ifstream columnFile) r.columns first hf1
    (by rw [hf2]; decide)
  rcases determineTime_spec (parseColumnFile (ifstream columnFile) r.columns) 0 0 (some 0) false
    with ⟨h1, _⟩ | ⟨i, c, h1, h2, h3, _, _⟩
  · obtain ⟨c, hc1, hc2⟩ := hrank
    have := h1 c hc1
    omega
  · cases i with
    | zero =>
      have hc : c = y := by
        cases hcols : parseColumnFile (ifstream columnFile) r.columns with
        | nil => rw [hcols] at hy1; simp at hy1
        | cons a b =>
          rw [hcols] at hy1 h1
          simp at hy1 h1
          rw [← hy1, ← h1]
      rw [hc, hy2, hf2, potentialMatch_Index] at h2
      omega
    | succ i =>
      refine ⟨i, ?_, ?_, ?_⟩
      · rw [hq2]
        simp [OutputParser.parseFinish, hne, htf, h3]
      · rw [hq2]
        have hlt : i + 1 < (parseColumnFile (ifstream columnFile) r.columns).length := by
          rcases List.getElem?_eq_some.mp h1 with ⟨hlt, _⟩
          exact hlt
        simp [OutputParser.parseFinish, hne, hrx]
        omega
      · rw [hq2]
        simp [OutputParser.parseFinish, hne, hrx]

/-- Witness for C8 (amended): the file "Index<tab>t" gives `isXycePRN` true, the
column "t" has a rank, and `time` is that column, at position 0 of the final
vector. -/
theorem parse_time_kept_when_ranked_witness :
    fresh.parseRows atof 0 (some "Index\tt\n") 0 = some indexRows ∧
    fresh.parse atof 0 (some "Index\tt\n") none 0 = some indexFinal ∧
    indexFinal.isXycePRN = true ∧
    (∃ c ∈ parseColumnFile (ifstream none) indexRows.columns, 0 < potentialMatch c.header) ∧
    ∃ i, indexFinal.time = some (i + 1) ∧ i < indexFinal.columns.length ∧
      indexFinal.columns[i]? = (parseColumnFile (ifstream none) indexRows.columns)[i + 1]? :=
  ⟨by decide, by decide, by decide, by decide,
    parse_time_kept_when_ranked atof 0 fresh (some "Index\tt\n") none 0 indexRows indexFinal
      (by decide) (by decide) (by decide) (by decide)⟩

/-- C9: Xyce stripping.  When the first non-blank line `l :: tail` of the file is a
header row, `parse` returns, the first column `first` left by the row loop has the
first field of that line as header, `rows` is not changed after the row loop, and
either that field is "Index", `isXycePRN` is true and the final columns are the
columns after the column file was read without `first`, in the same order, or
the field is not "Index", `isXycePRN` is false and no column is removed. -/
theorem parse_xyce_stripping {V : Type} (atof : List Char → V) (uninit : V)
    (p : OutputParser V) (file columnFile : Option String) (d : V)
    (blanks : Nat) (l : Char) (tail : List Char) (rest : List (List Char))
    (hfile : ifstream file = List.replicate blanks [] ++ (l :: tail) :: rest)
    (hheader : isHeaderChar l = true)
    (hend : substr (l :: tail) 0 6 ≠ some "End of".data) :
    ∃ r q first, p.parseRows atof uninit file d = some r ∧
      p.parse atof uninit file columnFile d = some q ∧
      r.columns.head? = some first ∧ first.header = String.mk (firstField (l :: tail)) ∧
      q.rows = r.rows ∧
      ((firstField (l :: tail) = "Index".data ∧ q.isXycePRN = true ∧
          first :: q.columns = parseColumnFile (ifstream columnFile) r.columns) ∨
       (firstField (l :: tail) ≠ "Index".data ∧ q.isXycePRN = false ∧
          q.columns = parseColumnFile (ifstream columnFile) r.columns)) := by
  obtain ⟨p1, first, h1, h2, _, _, _, _, h7, h8, h9⟩ :=
    nextRowLoop_first_header atof uninit l tail rest hheader hend blanks
      (({ p with defaultValue := d }).open file) rfl
  have hnext : (({ p with defaultValue := d }).open file).nextRow atof uninit =
      p1.nextRow atof uninit := by
    simp only [OutputParser.nextRow, h2]
    simp only [OutputParser.open, OutputParser.close, hfile] at h1 ⊢
    exact h1
  obtain ⟨r, hr, hreach⟩ := parseLoop_some atof uninit ((ifstream file).length + 1) p1 rest h2
    (by rw [hfile]; simp; omega)
  have hrows : p.parseRows atof uninit file d = some r := by
    unfold OutputParser.parseRows
    rw [parseLoop_congr atof uninit _ _ p1 hnext]
    exact hr
  obtain ⟨y, hy1, hy2, hy3⟩ := hreach.head first h7 h9
  have hne : r.columns.isEmpty = false := by
    cases hc : r.columns with
    | nil => rw [hc] at hy1; simp at hy1
    | cons a b => rfl
  refine ⟨r, r.parseFinish columnFile, y, hrows, by simp [OutputParser.parse, hrows], hy1,
    hy2.trans h8, ?_, ?_⟩
  · simp [OutputParser.parseFinish, hne]
  · by_cases hidx : firstField (l :: tail) = "Index".data
    · left
      have hhdr : y.header = "Index" := by rw [hy2, h8, hidx]
      have hx : r.isXycePRN = true := by rw [hy3, ← hy2, hhdr]; rfl
      obtain ⟨others, hothers⟩ := parseColumnFile_head_eq (ifstream columnFile) r.columns y hy1
        (by rw [hhdr]; decide)
      refine ⟨hidx, by simp [OutputParser.parseFinish, hne, hx], ?_⟩
      simp [OutputParser.parseFinish, hne, hx, hothers]
    · right
      have hhdr : y.header ≠ "Index" := by
        rw [hy2, h8]
        intro hcontra
        apply hidx
        have := congrArg String.data hcontra
        exact this
      have hx : r.isXycePRN = false := by
        rw [hy3, ← hy2]
        simpa using hhdr
      refine ⟨hidx, by simp [OutputParser.parseFinish, hne, hx], ?_⟩
      simp [OutputParser.parseFinish, hne, hx]


/-- Witness for C9 (scenario S3): the first line of the Xyce file is a header row
whose first field is "Index"; `parse` gives the two columns "TIME" and "V(1)",
`isXycePRN` true and `rows` 2. -/
theorem parse_xyce_stripping_witness :
    ifstream (some scenarioS3) =
      List.replicate 0 [] ++ ('I' :: "ndex\tTIME\tV(1)".data) ::
        ["0\t0.0\t1.0".data, "1\t1e-3\t1.5".data, "End of Xyce".data] ∧
    isHeaderChar 'I' = true ∧
    substr ('I' :: "ndex\tTIME\tV(1)".data) 0 6 ≠ some "End of".data ∧
    (∃ r q first, fresh.parseRows atof 0 (some scenarioS3) 0 = some r ∧
      fresh.parse atof 0 (some scenarioS3) none 0 = some q ∧
      r.columns.head? = some first ∧
      first.header = String.mk (firstField ('I' :: "ndex\tTIME\tV(1)".data)) ∧
      q.rows = r.rows ∧
      ((firstField ('I' :: "ndex\tTIME\tV(1)".data) = "Index".data ∧ q.isXycePRN = true ∧
          first :: q.columns = parseColumnFile (ifstream none) r.columns) ∨
       (firstField ('I' :: "ndex\tTIME\tV(1)".data) ≠ "Index".data ∧ q.isXycePRN = false ∧
          q.columns = parseColumnFile (ifstream none) r.columns))) ∧
    (fresh.parse atof 0 (some scenarioS3) none 0).map
        (fun q => (q.columns.map (fun c => c.header), q.isXycePRN, q.rows))
      = some (["TIME", "V(1)"], true, 2) :=
  ⟨by decide, by decide, by decide,
    parse_xyce_stripping atof 0 fresh (some scenarioS3) none 0 0 'I' "ndex\tTIME\tV(1)".data
      ["0\t0.0\t1.0".data, "1\t1e-3\t1.5".data, "End of Xyce".data]
      (by decide) (by decide) (by decide),
    by decide⟩

/-- C10 (the code at the failing input): after `parse` of scenario S4 with default
value -1, `rows` is 2 and the column "c" returns -1 for row 0, although its field
"3" in that row parses to 3; it also returns -1 for row 1. -/
theorem parse_S4_last_field_not_stored :
    (fresh.parse atof 0 (some scenarioS4) none (-1)).map
        (fun q => (q.rows, q.columns.map fun c => (c.header, c.get 0 (-1), c.get 1 (-1))))
      = some (2, [("a", some 1, some 4), ("b", some 2, some (-1)), ("c", some (-1), some (-1))]) ∧
    atof "3".data = 3 := by
  decide

/-- C11 (the code at the failing input): after `parse` of scenario S5 there is one
column and `rows` is 1; the row "2<tab>9" is still unread, so that no second
column exists. -/
theorem parse_S5_stops_after_first_row :
    (fresh.parse atof 0 (some scenarioS5) none 0).map
        (fun q => (q.columns.length, q.rows, q.input)) = some (1, 1, some ["2\t9".data]) := by
  decide

/-- C12: header stability, for every parser state `p`.  A call of `nextRow`
returns and leaves the list of headers of `p` as a prefix of the new list of
headers: the old columns keep their header and their position.  The body of the
row loop of `parse` keeps the list of headers, and so does the whole row loop up
to new columns at the end.  Reading the column file keeps every column at its
position and changes it only when its header is empty, and then only the header.
The rest of `parse` leaves the columns as they are or removes the first one. -/
theorem header_stability {V : Type} (atof : List Char → V) (uninit : V)
    (p : OutputParser V) (columnFile : Option String) :
    (∃ count q, p.nextRow atof uninit = some (count, q) ∧
      p.columns.map (fun c => c.header) <+: q.columns.map (fun c => c.header)) ∧
    (∀ count, count ≤ p.columns.length →
      ∃ q, storeRow p count = some q ∧
        q.columns.map (fun c => c.header) = p.columns.map (fun c => c.header)) ∧
    (∀ budget lines, p.input = some lines → lines.length < budget →
      ∃ r, parseLoop atof uninit budget p = some r ∧
        p.columns.map (fun c => c.header) <+: r.columns.map (fun c => c.header)) ∧
    (∀ (i : Nat) (c : Column V), p.columns[i]? = some c →
      ∃ c', (parseColumnFile (ifstream columnFile) p.columns)[i]? = some c' ∧
        (c' = c ∨ (c.header.isEmpty = true ∧ ∃ line, c' = { c with header := String.mk line }))) ∧
    ((p.parseFinish columnFile).columns = p.columns ∨
      (p.parseFinish columnFile).columns = parseColumnFile (ifstream columnFile) p.columns ∨
      (p.parseFinish columnFile).columns =
        (parseColumnFile (ifstream columnFile) p.columns).tail) := by
  refine ⟨?_, ?_, ?_, ?_, parseFinish_columns p columnFile⟩
  · obtain ⟨count, q, h1, _, h3⟩ := nextRow_some atof uninit p
    exact ⟨count, q, h1, h3⟩
  · intro count hcount
    obtain ⟨cols, h1, _, h3⟩ := storeRow_some p count hcount
    exact ⟨_, h1, h3⟩
  · intro budget lines hin hlen
    obtain ⟨r, h1, h2⟩ := parseLoop_some atof uninit budget p lines hin hlen
    exact ⟨r, h1, h2.2.2.2.1⟩
  · intro i c hc
    exact parseColumnFile_getElem (ifstream columnFile) p.columns i c hc

/-- C15: the column invariant.  `ColumnInv` says that `rows` is not negative and
that every column satisfies `startRow >= 0` and `startRow + len (values) <= rows`.
It holds after `open`, every iteration of the row loop of `parse` (a call of
`nextRow` with a nonzero count followed by the loop body) preserves it, and
`parse` returns a state that satisfies it, so that at the end of `parse` every
column with values satisfies the two bounds. -/
theorem column_invariant {V : Type} (atof : List Char → V) (uninit : V)
    (p : OutputParser V) (file columnFile : Option String) (d : V) :
    ColumnInv (({ p with defaultValue := d }).open file) ∧
    (∀ (s s1 s2 : OutputParser V) (count : Nat), ColumnInv s →
      s.nextRow atof uninit = some (count, s1) → count ≠ 0 →
      storeRow s1 count = some s2 → ColumnInv s2) ∧
    (∃ r q, p.parseRows atof uninit file d = some r ∧
      p.parse atof uninit file columnFile d = some q ∧ ColumnInv r ∧ ColumnInv q ∧
      ∀ c ∈ q.columns, c.values ≠ [] →
        0 ≤ c.startRow ∧ c.startRow + c.values.length ≤ q.rows) := by
  have hopen : ColumnInv (({ p with defaultValue := d }).open file) :=
    ⟨le_refl _, fun c hc => by simp [OutputParser.open, OutputParser.close] at hc⟩
  refine ⟨hopen, ?_, ?_⟩
  · intro s s1 s2 count hinv h1 hc h2
    exact (rowLoop_step_inv atof uninit s s1 count hinv h1).2 hc s2 h2
  · obtain ⟨r, hr, _⟩ := parseRows_some atof uninit p file d
    have hrinv : ColumnInv r := parseLoop_inv atof uninit _ _ r hopen hr
    have hqinv := parseFinish_inv r columnFile hrinv
    exact ⟨r, r.parseFinish columnFile, hr, by simp [OutputParser.parse, hr], hrinv, hqinv,
      fun c hc _ => hqinv.2 c hc⟩

/-- C16 (counterexample): for the data line "1<tab>" `nextRow` creates a second
column and assigns it the value `atof ("")`, which is 0 and not the unset 7, while
for the line "1" there is one column; for the header line "a<tab>" it creates a
second column with an empty header. -/
theorem nextRow_trailing_delimiter_creates_column :
    ((fresh.open (some "1\t\n")).nextRow atof 7).map
        (fun x => (x.1, x.2.columns.map fun c => c.value)) = some (1, [1, 0]) ∧
    ((fresh.open (some "1\n")).nextRow atof 7).map
        (fun x => (x.1, x.2.columns.map fun c => c.value)) = some (0, [1]) ∧
    ((fresh.open (some "a\t\n")).nextRow atof 7).map
        (fun x => x.2.columns.map fun c => c.header) = some ["a", ""] := by
  decide

/-- C16 (amended): the empty text after a final delimiter is one more field.  When
the scan of the line `body` ends with column index `n`, the number of its
delimiters, the scan of `body` followed by one space or tab ends with column index
`n + 1`; afterwards the table has at least `n + 2` columns, against `n + 1`
without the trailing delimiter. -/
theorem scanFields_trailing_delimiter {V : Type} (atof : List Char → V) (uninit d : V)
    (body : List Char) (delim : Char) (isHeader : Bool) (columns : List (Column V))
    (hd : delim = ' ' ∨ delim = '\t') :
    ∃ cols1 cols2,
      scanFields atof uninit d body isHeader (body.length + 1) 0 0 columns =
        some (countDelims body, cols1) ∧
      scanFields atof uninit d (body ++ [delim]) isHeader ((body ++ [delim]).length + 1) 0 0
        columns = some (countDelims body + 1, cols2) ∧
      cols1.length = max columns.length (countDelims body + 1) ∧
      cols2.length = max columns.length (countDelims body + 2) := by
  obtain ⟨cols1, h1, h2⟩ := scanFields_count atof uninit d body isHeader (body.length + 1) 0 0
    columns (by omega) (Nat.zero_le _) (Nat.zero_le _)
  obtain ⟨cols2, g1, g2⟩ := scanFields_count atof uninit d (body ++ [delim]) isHeader
    ((body ++ [delim]).length + 1) 0 0 columns (by omega) (Nat.zero_le _) (Nat.zero_le _)
  have hcount : countDelims (body ++ [delim]) = countDelims body + 1 := by
    rcases hd with hd | hd <;> subst hd <;> simp [countDelims, List.countP_append]
  simp only [List.drop_zero, Nat.zero_add] at h1 h2 g1 g2
  rw [hcount] at g1 g2
  exact ⟨cols1, cols2, h1, g1, h2, g2⟩

/-- Witness for C16 (amended): the line "1" followed by a tab, scanned as a data
row on an empty table. -/
theorem scanFields_trailing_delimiter_witness :
    ('\t' = ' ' ∨ '\t' = '\t') ∧
    ∃ cols1 cols2,
      scanFields atof (7 : ℚ) 0 "1".data false ("1".data.length + 1) 0 0 [] =
        some (countDelims "1".data, cols1) ∧
      scanFields atof (7 : ℚ) 0 ("1".data ++ ['\t']) false (("1".data ++ ['\t']).length + 1) 0 0
        [] = some (countDelims "1".data + 1, cols2) ∧
      cols1.length = max ([] : List (Column ℚ)).length (countDelims "1".data + 1) ∧
      cols2.length = max ([] : List (Column ℚ)).length (countDelims "1".data + 2) :=
  ⟨by decide, scanFields_trailing_delimiter atof 7 0 "1".data '\t' false [] (by decide)⟩

/-- C17: the `raw` flag.  Let `n` calls of `nextRow` start in a state `p` whose
stream holds `lines`.  They return a state `q`; the lines they consumed and the
lines still pending make up `lines`; and `raw` is true afterwards exactly when it
was true before and no header line was consumed.  So lines that are not header
lines never change `raw`, and `raw` never goes back to true.  After `open`, where
`raw` is true, `raw` is true exactly when no header line has been consumed. -/
theorem raw_iff_no_header_consumed {V : Type} (atof : List Char → V) (uninit : V) (n : Nat)
    (p : OutputParser V) (lines : List (List Char)) (file : Option String)
    (hin : p.input = some lines) :
    (∃ q consumed pending, nextRowCalls atof uninit n p = some q ∧
      lines = consumed ++ pending ∧ q.input = some pending ∧
      (q.raw = true ↔ p.raw = true ∧ ∀ l ∈ consumed, isHeaderLine l = false)) ∧
    (∃ q consumed pending, nextRowCalls atof uninit n (p.open file) = some q ∧
      ifstream file = consumed ++ pending ∧ q.input = some pending ∧
      (q.raw = true ↔ ∀ l ∈ consumed, isHeaderLine l = false)) := by
  constructor
  · obtain ⟨q, consumed, pending, h1, h2, h3, h4⟩ := nextRowCalls_raw atof uninit n p lines hin
    refine ⟨q, consumed, pending, h1, h2, h3, ?_⟩
    rw [h4]
    simp
  · obtain ⟨q, consumed, pending, h1, h2, h3, h4⟩ :=
      nextRowCalls_raw atof uninit n (p.open file) (ifstream file) rfl
    refine ⟨q, consumed, pending, h1, h2, h3, ?_⟩
    rw [h4]
    simp [OutputParser.open]

/-- Witness for C17: two calls of `nextRow` on scenario S1, starting right after
`open`. -/
theorem raw_iff_no_header_consumed_witness :
    (fresh.open (some scenarioS1)).input = some (ifstream (some scenarioS1)) ∧
    (∃ q consumed pending,
      nextRowCalls atof 0 2 (fresh.open (some scenarioS1)) = some q ∧
      ifstream (some scenarioS1) = consumed ++ pending ∧ q.input = some pending ∧
      (q.raw = true ↔ (fresh.open (some scenarioS1)).raw = true ∧
        ∀ l ∈ consumed, isHeaderLine l = false)) ∧
    (nextRowCalls atof 0 2 (fresh.open (some scenarioS1))).map (fun q => (q.raw, q.rows, q.input))
      = some (false, 2, some ["2\t4.0".data]) :=
  ⟨rfl,
    (raw_iff_no_header_consumed atof 0 2 (fresh.open (some scenarioS1))
      (ifstream (some scenarioS1)) none rfl).1,
    by decide⟩

/-- C18 (the code at the failing input): for the data line "12345" the only field
has five characters and `textWidth` stays 0; in the line "12345<tab>1" the first
field is counted (5) and the last is not (0); after `parse` of scenario S1 the
column "v", whose fields have three characters, has `textWidth` 0. -/
theorem textWidth_misses_last_field :
    ((fresh.open (some "12345\n")).nextRow atof 0).map
        (fun x => x.2.columns.map fun c => c.textWidth) = some [0] ∧
    ((fresh.open (some "12345\t1\n")).nextRow atof 0).map
        (fun x => x.2.columns.map fun c => c.textWidth) = some [5, 0] ∧
    (fresh.parse atof 0 (some scenarioS1) none 0).map
        (fun q => q.columns.map fun c => (c.header, c.textWidth)) = some [("t", 1), ("v", 0)] := by
  decide

/-- C19: index safety.  In the field loop of `nextRow`, when the column index `c`
is at most the number of columns, the loop body finds `columns[c]` in bounds and
leaves at least `c + 1` columns, so that the next index is again at most the
number of columns; started with `c = 0` the loop returns an index below the
number of columns.  From every state `nextRow` returns, with a count that is at
most the number of columns, so that the body of the row loop of `parse` stays in
bounds; and `parse` returns. -/
theorem index_safety {V : Type} (atof : List Char → V) (uninit : V)
    (p : OutputParser V) (file columnFile : Option String) (d : V) :
    (∀ line isHeader c start length (columns : List (Column V)),
      c ≤ columns.length → start ≤ line.length →
      ∃ cols, scanField atof uninit d line isHeader c start length columns = some cols ∧
        c + 1 ≤ cols.length) ∧
    (∀ line isHeader, ∃ n cols,
      scanFields atof uninit d line isHeader (line.length + 1) 0 0 p.columns = some (n, cols) ∧
        n < cols.length) ∧
    (∃ count q, p.nextRow atof uninit = some (count, q) ∧ count ≤ q.columns.length ∧
      ∃ q', storeRow q count = some q') ∧
    (∃ q, p.parse atof uninit file columnFile d = some q) := by
  refine ⟨?_, ?_, ?_, ?_⟩
  · intro line isHeader c start length columns hc hs
    obtain ⟨cols, h1, h2, _⟩ :=
      scanField_some atof uninit d line isHeader c start length columns hc hs
    exact ⟨cols, h1, h2⟩
  · intro line isHeader
    obtain ⟨n, cols, h1, h2, _⟩ := scanFields_some atof uninit d line isHeader (line.length + 1)
      0 0 p.columns (by omega) (Nat.zero_le _) (Nat.zero_le _)
    exact ⟨n, cols, h1, h2⟩
  · obtain ⟨count, q, h1, h2, _⟩ := nextRow_some atof uninit p
    have hcount : count ≤ q.columns.length := by omega
    obtain ⟨cols, h3, _⟩ := storeRow_some q count hcount
    exact ⟨count, q, h1, hcount, _, h3⟩
  · obtain ⟨r, hr, _⟩ := parseRows_some atof uninit p file d
    exact ⟨r.parseFinish columnFile, by simp [OutputParser.parse, hr]⟩

/-- C20: for a data line `l :: tail` that `nextRow` reaches after skipping blank
lines and header lines, `nextRow` returns the number of spaces and tabs of that
line, counts the line in `rows` and leaves the lines after it in the stream.  For
a data line without delimiter the returned value is therefore 0. -/
theorem nextRow_returns_delimiter_count {V : Type} (atof : List Char → V) (uninit : V)
    (p : OutputParser V) (skipped : List (List Char)) (l : Char) (tail : List Char)
    (rest : List (List Char))
    (hin : p.input = some (skipped ++ (l :: tail) :: rest))
    (hskip : ∀ s ∈ skipped, s = [] ∨ isHeaderLine s = true)
    (hdata : isHeaderChar l = false) :
    ∃ q, p.nextRow atof uninit = some (countDelims (l :: tail), q) ∧
      q.rows = p.rows + 1 ∧ q.input = some rest ∧
      (countDelims (l :: tail) = 0 → p.nextRow atof uninit = some (0, q)) := by
  obtain ⟨q, h1, h2, h3⟩ :=
    nextRowLoop_data_line atof uninit l tail rest hdata skipped p hskip
  have hnext : p.nextRow atof uninit = some (countDelims (l :: tail), q) := by
    unfold OutputParser.nextRow
    rw [hin]
    exact h1
  exact ⟨q, hnext, h2, h3, fun h0 => by rw [hnext, h0]⟩

/-- Witness for C20: in the file with the lines "a", "", "5" the data line "5" has
no delimiter; `nextRow` skips the header and the blank line, returns 0 and counts
the row. -/
theorem nextRow_returns_delimiter_count_witness :
    (fresh.open (some "a\n\n5\n")).input = some (["a".data, []] ++ ('5' :: []) :: []) ∧
    (∀ s ∈ ["a".data, []], s = [] ∨ isHeaderLine s = true) ∧
    isHeaderChar '5' = false ∧
    ∃ q, (fresh.open (some "a\n\n5\n")).nextRow atof 0 = some (countDelims ('5' :: []), q) ∧
      q.rows = (fresh.open (some "a\n\n5\n")).rows + 1 ∧ q.input = some [] ∧
      (countDelims ('5' :: []) = 0 → (fresh.open (some "a\n\n5\n")).nextRow atof 0 = some (0, q)) :=
  ⟨by decide, by decide, by decide,
    nextRow_returns_delimiter_count atof 0 (fresh.open (some "a\n\n5\n")) ["a".data, []] '5' [] []
      (by decide) (by decide) (by decide)⟩

end N2A
